import Mathlib

/-!
# Verification of the resumable phase-state controller and call-admission limiter

Shallow embedding of `src/utils/state_manager.py` (class `StateManager`) and
`src/models/rate_limiter.py` (class `RateLimiter`) of the LLM-refactoring
pipeline, together with theorems settling the specification claims about them.

Modelling conventions:
* JSON dictionaries keyed by strings become association lists
  (`List (String × α)`) with dict-update semantics (`assocSet` replaces in
  place, appends fresh keys at the end — Python dict insertion order).
* Wall-clock readings (`datetime.now()`, `time.time()`) are threaded into each
  operation as an explicit `now : Nat` argument; the SHA-256 content digest is
  modelled by an abstract digest environment `fs : String → Option String`
  mapping a path to the digest of its current content (`none` when the file
  does not exist; `_get_file_hash` returns `""` in that case, as the Python
  code does on a read error).
* The manager's in-memory document and the on-disk (persisted) document are
  both carried in `SMState`, so that write-through persistence is observable.
* `statistics.estimated_cost` (a float that is initialised to `0.0` and never
  mutated anywhere in the repository) is omitted from the model.
-/

set_option maxRecDepth 4000

namespace RefactoringPipeline

/-! ## Association lists with Python-dict update semantics -/

def assocGet {α : Type} : List (String × α) → String → Option α
  | [], _ => none
  | (k', v) :: rest, k => if k' = k then some v else assocGet rest k

def assocSet {α : Type} : List (String × α) → String → α → List (String × α)
  | [], k, v => [(k, v)]
  | (k', v') :: rest, k, v =>
      if k' = k then (k, v) :: rest else (k', v') :: assocSet rest k v

theorem assocGet_assocSet_same {α : Type} (l : List (String × α)) (k : String) (v : α) :
    assocGet (assocSet l k v) k = some v := by
  induction l with
  | nil => simp [assocGet, assocSet]
  | cons hd tl ih =>
      obtain ⟨k', v'⟩ := hd
      by_cases h : k' = k
      · simp [assocGet, assocSet, h]
      · simp [assocGet, assocSet, h, ih]

theorem assocGet_assocSet_ne {α : Type} (l : List (String × α)) (k k' : String) (v : α)
    (h : k ≠ k') : assocGet (assocSet l k v) k' = assocGet l k' := by
  induction l with
  | nil => simp [assocGet, assocSet, h]
  | cons hd tl ih =>
      obtain ⟨k₀, v₀⟩ := hd
      by_cases h₀ : k₀ = k
      · subst h₀; simp [assocGet, assocSet, h]
      · simp only [assocSet, if_neg h₀, assocGet]
        by_cases h₁ : k₀ = k'
        · simp [h₁]
        · simp [h₁, ih]


theorem assocSet_self {α : Type} (l : List (String × α)) (k : String) (v : α)
    (h : assocGet l k = some v) : assocSet l k v = l := by
  induction l with
  | nil => simp [assocGet] at h
  | cons hd tl ih =>
      obtain ⟨k₀, v₀⟩ := hd
      by_cases h₀ : k₀ = k
      · subst h₀
        simp only [assocGet, if_pos rfl] at h
        simp [assocSet, Option.some.inj h]
      · simp only [assocGet, if_neg h₀] at h
        simp [assocSet, h₀, ih h]

theorem assocAll_set {α : Type} (l : List (String × α)) (k : String) (v : α)
    (p : α → Bool) (hl : l.all (fun kv => p kv.2)) (hv : p v = true) :
    (assocSet l k v).all (fun kv => p kv.2) := by
  induction l with
  | nil => simp [assocSet, hv]
  | cons hd tl ih =>
      obtain ⟨k₀, v₀⟩ := hd
      simp only [List.all_cons, Bool.and_eq_true] at hl
      by_cases h₀ : k₀ = k
      · simp [assocSet, h₀, hv, hl.2]
      · simp [assocSet, h₀, hl.1, ih hl.2]

/-! ## Data model of the persisted document (`_create_new_state`) -/

/-- Digest environment: path ↦ digest of current file content (`none` = absent). -/
abbrev FS := String → Option String

/-- `file_state['detection']` — written wholesale by `mark_detection_complete`. -/
structure DetectionRecord where
  completed : Bool
  timestamp : Option Nat
  has_smells : Option Bool
deriving DecidableEq, Repr

/-- One entry of `file_state['refactoring']` — written wholesale by
`mark_refactoring_complete`; `pr_number`/`pr_url` only when a truthy
`pr_number` was supplied. -/
structure RefactoringRecord where
  completed : Bool
  timestamp : Option Nat
  is_comment_only : Bool
  pr_number : Option Nat
  pr_url : Option String
deriving DecidableEq, Repr

/-- `file_state['refactoring']`: the `'gemini'` key always exists (created by
`_get_file_state`, never deleted), further model names go into `others`. -/
structure RefactoringMap where
  gemini : RefactoringRecord
  others : List (String × RefactoringRecord)
deriving DecidableEq, Repr

/-- Per-item state (`self.state['files'][filepath]`). -/
structure FileState where
  status : String
  file_hash : String
  detection : DetectionRecord
  refactoring : RefactoringMap
  attempts : Nat
  created_at : Nat
  last_attempt : Option Nat
  start_time : Option Nat
  completed_at : Option Nat
  processing_time_seconds : Option Nat
  last_error : Option String
  failed_phase : Option String
  last_failed : Option Nat
  skip_reason : Option String
  skipped_at : Option Nat
deriving DecidableEq, Repr

/-- One entry of `self.state['runs']`. -/
structure RunRecord where
  run_id : Nat
  started_at : Nat
  files_processed : Nat
  prs_created : Nat
  completed_at : Option Nat
deriving DecidableEq, Repr

/-- One entry of `statistics.smell_breakdown`. -/
structure SmellCount where
  count : Nat
  sev_low : Nat
  sev_medium : Nat
  sev_high : Nat
deriving DecidableEq, Repr

/-- `self.state['statistics']` (the float `estimated_cost`, never mutated in
the repository, is omitted). -/
structure Statistics where
  total_files_processed : Nat
  completed : Nat
  failed : Nat
  skipped : Nat
  prs_created : Nat
  comment_only_refactorings : Nat
  code_refactorings : Nat
  api_calls_gemini_flash : Nat
  api_calls_gemini_pro : Nat
  total_processing_time_seconds : Nat
  smell_breakdown : List (String × SmellCount)
deriving DecidableEq, Repr

/-- The persisted document (`self.state`). -/
structure Document where
  version : String
  created_at : Nat
  last_updated : Nat
  runs : List RunRecord
  files : List (String × FileState)
  statistics : Statistics
deriving DecidableEq, Repr

/-- State of a `StateManager` instance: the in-memory document, the last
successfully persisted document, and the configured retry ceiling. -/
structure SMState where
  mem : Document
  disk : Document
  max_retries : Nat
deriving DecidableEq, Repr

def freshStatistics : Statistics :=
  { total_files_processed := 0, completed := 0, failed := 0, skipped := 0
    prs_created := 0, comment_only_refactorings := 0, code_refactorings := 0
    api_calls_gemini_flash := 0, api_calls_gemini_pro := 0
    total_processing_time_seconds := 0, smell_breakdown := [] }

/-- `_create_new_state`. -/
def create_new_state (now : Nat) : Document :=
  { version := "1.1", created_at := now, last_updated := now
    runs := [], files := [], statistics := freshStatistics }

/-! ## StateManager operations -/

/-- `_get_file_hash`: digest of the current content, `""` on a read failure
(in particular for an absent file). -/
def get_file_hash (fs : FS) (p : String) : String :=
  (fs p).getD ""

/-- The fresh per-item record created by `_get_file_state`. -/
def freshFileState (fs : FS) (p : String) (now : Nat) : FileState :=
  { status := "pending"
    file_hash := get_file_hash fs p
    detection := { completed := false, timestamp := none, has_smells := none }
    refactoring :=
      { gemini := { completed := false, timestamp := none, is_comment_only := false
                    pr_number := none, pr_url := none }
        others := [] }
    attempts := 0
    created_at := now
    last_attempt := none, start_time := none, completed_at := none
    processing_time_seconds := none, last_error := none, failed_phase := none
    last_failed := none, skip_reason := none, skipped_at := none }

/-- `_get_file_state`: fetch the record for `p`, creating (in memory) a fresh
one when the item has never been seen. -/
def _get_file_state (doc : Document) (fs : FS) (p : String) (now : Nat) :
    Document × FileState :=
  match assocGet doc.files p with
  | some st => (doc, st)
  | none =>
      let st := freshFileState fs p now
      ({ doc with files := assocSet doc.files p st }, st)

/-- `_save_state`, success path: stamp `last_updated`, then publish the
in-memory document atomically; afterwards disk and memory coincide. -/
def save_ok (s : SMState) (now : Nat) : SMState :=
  let doc := { s.mem with last_updated := now }
  { s with mem := doc, disk := doc }

/-- Helper: overwrite the record of `p` in the in-memory document. -/
def putFile (s : SMState) (p : String) (st : FileState) : SMState :=
  { s with mem := { s.mem with files := assocSet s.mem.files p st } }

/-- `should_process`: eligibility gate.  Note the order of effects in the
source: the record is fetched (and, for a never-seen item, created in memory)
before the existence check; the content-changed branch mutates the in-memory
record and returns without calling `_save_state`. -/
def should_process (s : SMState) (fs : FS) (p : String) (now : Nat) :
    SMState × Bool × String :=
  let (doc, st) := _get_file_state s.mem fs p now
  let s := { s with mem := doc }
  if (fs p).isNone then (s, false, "file_not_found")
  else if st.status = "completed" then
    let current_hash := get_file_hash fs p
    if current_hash ≠ st.file_hash then
      (putFile s p { st with status := "pending", file_hash := current_hash },
       true, "file_changed")
    else (s, false, "already_completed")
  else if st.status = "failed" ∧ s.max_retries ≤ st.attempts then
    (s, false, "max_retries_exceeded")
  else (s, true, "ready")

/-- `start_processing`. -/
def start_processing (s : SMState) (fs : FS) (p : String) (now : Nat) :
    SMState × FileState :=
  let (doc, st) := _get_file_state s.mem fs p now
  let st' := { st with attempts := st.attempts + 1, status := "processing"
                       last_attempt := some now, start_time := some now }
  (save_ok (putFile { s with mem := doc } p st') now, st')

/-- `mark_detection_complete`: rewrite the detection record and count a
`gemini_flash` API call — on every invocation. -/
def mark_detection_complete (s : SMState) (fs : FS) (p : String)
    (has_smells : Bool) (now : Nat) : SMState :=
  let (doc, st) := _get_file_state s.mem fs p now
  let st' := { st with detection :=
      { completed := true, timestamp := some now, has_smells := some has_smells } }
  let s' := putFile { s with mem := doc } p st'
  let s' := { s' with mem := { s'.mem with statistics :=
      { s'.mem.statistics with api_calls_gemini_flash :=
          s'.mem.statistics.api_calls_gemini_flash + 1 } } }
  save_ok s' now

/-- Python truthiness of an optional integer (`if pr_number:`). -/
def truthyNat : Option Nat → Bool
  | some n => n ≠ 0
  | none => false

/-- `mark_refactoring_complete`: rewrite the record of `model` wholesale and,
when `model = "gemini"`, count a `gemini_pro` API call — on every invocation. -/
def mark_refactoring_complete (s : SMState) (fs : FS) (p : String)
    (model : String) (pr_number : Option Nat) (pr_url : Option String)
    (is_comment_only : Bool) (now : Nat) : SMState :=
  let (doc, st) := _get_file_state s.mem fs p now
  let base : RefactoringRecord :=
    { completed := true, timestamp := some now, is_comment_only := is_comment_only
      pr_number := none, pr_url := none }
  let record := if truthyNat pr_number then
      { base with pr_number := pr_number, pr_url := pr_url } else base
  let refac := if model = "gemini" then { st.refactoring with gemini := record }
      else { st.refactoring with others := assocSet st.refactoring.others model record }
  let s' := putFile { s with mem := doc } p { st with refactoring := refac }
  let s' := if model = "gemini" then
      { s' with mem := { s'.mem with statistics :=
          { s'.mem.statistics with api_calls_gemini_pro :=
              s'.mem.statistics.api_calls_gemini_pro + 1 } } }
    else s'
  save_ok s' now

/-- Update the last run record, if any (`runs[-1][...] += ...`). -/
def updateLastRun (runs : List RunRecord) (f : RunRecord → RunRecord) :
    List RunRecord :=
  match runs.getLast? with
  | none => runs
  | some last => runs.dropLast ++ [f last]

/-- `mark_completed`: set status to `completed`, fold the outcome into the
aggregate statistics and the open run.  It reads but does not check the phase
records. -/
def mark_completed (s : SMState) (fs : FS) (p : String) (now : Nat) : SMState :=
  let (doc, st) := _get_file_state s.mem fs p now
  let st' := { st with status := "completed", completed_at := some now }
  let (st'', extraTime) :=
    match st'.start_time with
    | some t0 =>
        ({ st' with processing_time_seconds := some (now - t0), start_time := none },
         now - t0)
    | none => (st', 0)
  let stats := doc.statistics
  let is_comment_only := st.refactoring.gemini.is_comment_only
  let prs := if truthyNat st.refactoring.gemini.pr_number then 1 else 0
  let stats :=
    { stats with
      total_processing_time_seconds := stats.total_processing_time_seconds + extraTime
      completed := stats.completed + 1
      total_files_processed := stats.total_files_processed + 1
      comment_only_refactorings :=
        stats.comment_only_refactorings + (if is_comment_only then 1 else 0)
      code_refactorings := stats.code_refactorings + (if is_comment_only then 0 else 1)
      prs_created := stats.prs_created + prs }
  let runs := updateLastRun doc.runs (fun r =>
      { r with files_processed := r.files_processed + 1
               prs_created := r.prs_created + prs })
  let s' := putFile { s with mem := { doc with statistics := stats, runs := runs } } p st''
  save_ok s' now

/-- `mark_failed`: record the error; finalize as `failed` when the retry
ceiling is reached, otherwise reset to `pending`. -/
def mark_failed (s : SMState) (fs : FS) (p : String) (error : String)
    (phase : String) (now : Nat) : SMState :=
  let (doc, st) := _get_file_state s.mem fs p now
  let st' :=
    { st with last_error := some error, failed_phase := some phase, last_failed := some now }
  let (st'', failedInc) :=
    if s.max_retries ≤ st'.attempts then ({ st' with status := "failed" }, 1)
    else ({ st' with status := "pending" }, 0)
  let st'' := { st'' with start_time := none }
  let doc := { doc with statistics :=
      { doc.statistics with failed := doc.statistics.failed + failedInc } }
  save_ok (putFile { s with mem := doc } p st'') now

/-- `mark_skipped`. -/
def mark_skipped (s : SMState) (fs : FS) (p : String) (reason : String)
    (now : Nat) : SMState :=
  let (doc, st) := _get_file_state s.mem fs p now
  let st' :=
    { st with status := "skipped", skip_reason := some reason, skipped_at := some now }
  let doc := { doc with statistics :=
      { doc.statistics with skipped := doc.statistics.skipped + 1 } }
  save_ok (putFile { s with mem := doc } p st') now

/-- `track_smell_stats` severity levels (`smell.get('severity', 'medium')`). -/
inductive Severity where
  | low | medium | high
deriving DecidableEq, Repr

def bumpSmell (breakdown : List (String × SmellCount)) (ty : String)
    (sev : Severity) : List (String × SmellCount) :=
  let c := (assocGet breakdown ty).getD { count := 0, sev_low := 0, sev_medium := 0, sev_high := 0 }
  let c := { c with count := c.count + 1 }
  let c := match sev with
    | .low => { c with sev_low := c.sev_low + 1 }
    | .medium => { c with sev_medium := c.sev_medium + 1 }
    | .high => { c with sev_high := c.sev_high + 1 }
  assocSet breakdown ty c

/-- `track_smell_stats`. -/
def track_smell_stats (s : SMState) (smells : List (String × Severity))
    (now : Nat) : SMState :=
  let breakdown := smells.foldl (fun b sm => bumpSmell b sm.1 sm.2)
      s.mem.statistics.smell_breakdown
  save_ok { s with mem := { s.mem with statistics :=
      { s.mem.statistics with smell_breakdown := breakdown } } } now

/-- `complete_run`: close the open run, if there is one. -/
def complete_run (s : SMState) (now : Nat) : SMState :=
  match s.mem.runs.getLast? with
  | none => s
  | some lastRun =>
      if lastRun.completed_at = none then
        save_ok { s with mem := { s.mem with
            runs := updateLastRun s.mem.runs (fun r => { r with completed_at := some now }) } } now
      else s

/-- Entry of the `get_failed_files` listing. -/
structure FailedEntry where
  file : String
  attempts : Nat
  error : String
  phase : String
deriving DecidableEq, Repr

/-- `get_failed_files`. -/
def get_failed_files (doc : Document) : List FailedEntry :=
  doc.files.filterMap (fun kv =>
    if kv.2.status = "failed" then
      some { file := kv.1, attempts := kv.2.attempts
             error := kv.2.last_error.getD "Unknown"
             phase := kv.2.failed_phase.getD "unknown" }
    else none)

/-- `reset`. -/
def reset (s : SMState) (now : Nat) : SMState :=
  save_ok { s with mem := create_new_state now } now

/-- `has_previous_run`. -/
def has_previous_run (s : SMState) : Bool :=
  s.mem.files ≠ []

/-- Construction of a fresh manager (no prior state file): `_load_state`
produces a new document and `_init_current_run` opens run 1 and saves. -/
def initSM (max_retries now : Nat) : SMState :=
  let doc := create_new_state now
  let doc := { doc with runs :=
      [{ run_id := 1, started_at := now, files_processed := 0, prs_created := 0
         completed_at := none }] }
  save_ok { mem := doc, disk := doc, max_retries := max_retries } now

/-! ## `_save_state` with an explicit write outcome (for the error-handling claim)

`_save_state` wraps the whole write sequence in `try: ... except Exception:
print(warning)`.  `WriteOutcome` says whether the write sequence (temp-file
write / backup move / atomic rename) raises; the wrapper determines what the
caller observes. -/

inductive WriteOutcome where
  /-- The write sequence completes. -/
  | ok
  /-- An exception with the given message is raised while writing the
  temporary file or publishing it. -/
  | raiseDuring (msg : String)
deriving DecidableEq, Repr

/-- The `try` block of `_save_state`: stamp `last_updated`, then write the
temporary file and publish it; an unrecoverable write failure raises. -/
def save_state_try (doc : Document) (now : Nat) (w : WriteOutcome) :
    Except String Document :=
  let doc := { doc with last_updated := now }
  match w with
  | .ok => .ok doc
  | .raiseDuring msg => .error msg

/-- `_save_state` as the caller sees it: the second component is the exception
propagated to the caller, if any.  The `except Exception` clause catches the
failure, prints a warning and falls through, so the method returns normally
either way; on failure the in-memory timestamp was already stamped but the
persisted document is unchanged. -/
def save_state (s : SMState) (now : Nat) (w : WriteOutcome) :
    SMState × Option String :=
  match save_state_try s.mem now w with
  | .ok doc => ({ s with mem := doc, disk := doc }, none)
  | .error _ => ({ s with mem := { s.mem with last_updated := now } }, none)

/-! ## Sequences of controller operations

`Op` enumerates the public mutating operations of the controller (plus the
eligibility query, which also mutates).  `reset` is kept separate, matching
the claims that quantify over reset-free operation sequences. -/

inductive Op where
  | opShouldProcess (fs : FS) (p : String) (now : Nat)
  | opStartProcessing (fs : FS) (p : String) (now : Nat)
  | opMarkDetectionComplete (fs : FS) (p : String) (has_smells : Bool) (now : Nat)
  | opMarkRefactoringComplete (fs : FS) (p : String) (model : String)
      (pr_number : Option Nat) (pr_url : Option String) (is_comment_only : Bool)
      (now : Nat)
  | opMarkCompleted (fs : FS) (p : String) (now : Nat)
  | opMarkFailed (fs : FS) (p : String) (error : String) (phase : String) (now : Nat)
  | opMarkSkipped (fs : FS) (p : String) (reason : String) (now : Nat)
  | opTrackSmellStats (smells : List (String × Severity)) (now : Nat)
  | opCompleteRun (now : Nat)

def applyOp (op : Op) (s : SMState) : SMState :=
  match op with
  | .opShouldProcess fs p now => (should_process s fs p now).1
  | .opStartProcessing fs p now => (start_processing s fs p now).1
  | .opMarkDetectionComplete fs p hs now => mark_detection_complete s fs p hs now
  | .opMarkRefactoringComplete fs p model prn pru ico now =>
      mark_refactoring_complete s fs p model prn pru ico now
  | .opMarkCompleted fs p now => mark_completed s fs p now
  | .opMarkFailed fs p err phase now => mark_failed s fs p err phase now
  | .opMarkSkipped fs p reason now => mark_skipped s fs p reason now
  | .opTrackSmellStats smells now => track_smell_stats s smells now
  | .opCompleteRun now => complete_run s now

def applyOps (ops : List Op) (s : SMState) : SMState :=
  ops.foldl (fun s op => applyOp op s) s

/-- Operations that unconditionally call `_save_state` before returning —
every public mutator except the eligibility query. -/
def alwaysSaves : Op → Bool
  | .opShouldProcess _ _ _ => false
  | _ => true

/-! ## Call-admission limiter (`src/models/rate_limiter.py`)

Wall-clock instants are integers (whole-second `time.time()` readings —
the algorithm only compares instants and window widths, so this
discretization is faithful); `time.sleep` is modelled by advancing the clock
of the recursive retry.  The class guards its whole body with
`with self.lock:` on a plain `threading.Lock` — a **non-reentrant** mutex —
and the recursive retry on the blocked path runs *inside* that block, so the
model threads a `lock_held` flag through `wait_if_needed`; acquiring the
lock while the same thread already holds it blocks that thread forever,
which the model renders as `none` (the call never produces a result).  The
recursion of `wait_if_needed` is not structurally decreasing, so the model
also takes an explicit retry budget (`fuel`). -/

structure RateLimiter where
  rpm_limit : Nat
  num_keys : Nat
  request_times : List (List ℤ)
  current_key_index : Nat
deriving DecidableEq, Repr

/-- `RateLimiter.__init__`. -/
def RateLimiter.init (rpm_limit num_keys : Nat) : RateLimiter :=
  { rpm_limit := rpm_limit, num_keys := num_keys
    request_times := List.replicate num_keys [], current_key_index := 0 }

/-- The eviction loop: `while times and current_time - times[0] > 60:
times.popleft()`. -/
def cleanOld (now : ℤ) : List ℤ → List ℤ
  | [] => []
  | t :: rest => if now - t > 60 then cleanOld now rest else t :: rest

/-- One pass of the `for attempt in range(self.num_keys)` loop, over the list
of key indices it visits.  Each visited key's window is evicted in place; the
first key with capacity records the grant and advances the rotating cursor. -/
def tryAttempts (now : ℤ) (rl : RateLimiter) : List Nat → Option Nat × RateLimiter
  | [] => (none, rl)
  | key_idx :: rest =>
      let times := cleanOld now (rl.request_times.getD key_idx [])
      if times.length < rl.rpm_limit then
        (some key_idx,
         { rl with request_times := rl.request_times.set key_idx (times ++ [now])
                   current_key_index := (key_idx + 1) % rl.num_keys })
      else
        tryAttempts now { rl with request_times := rl.request_times.set key_idx times } rest

/-- The non-blocking part of `wait_if_needed`: visit every key starting from
the rotating cursor; `none` means all keys are at their ceiling (and all
windows have been evicted in place). -/
def try_acquire (rl : RateLimiter) (now : ℤ) : Option Nat × RateLimiter :=
  tryAttempts now rl
    ((List.range rl.num_keys).map fun attempt =>
      (rl.current_key_index + attempt) % rl.num_keys)

/-- `min` over a non-empty Python iterable, as an option. -/
def listMin : List ℤ → Option ℤ
  | [] => none
  | t :: rest =>
      match listMin rest with
      | none => some t
      | some m => some (min t m)

/-- `min(times[0] for times in self.request_times.values() if times)`. -/
def oldestEntry (rl : RateLimiter) : Option ℤ :=
  listMin (rl.request_times.filterMap List.head?)

/-- `wait_if_needed`: the body opens with `with self.lock:`, acquiring the
non-reentrant `threading.Lock` — if this thread already holds it
(`lock_held = true`), that acquisition blocks forever, rendered as `none`.
Otherwise: grant immediately if a key has capacity; else sleep until the
oldest window entry has expired (plus a one-second safety margin) and retry
recursively — the `return self.wait_if_needed()` sits inside the `with`
block, so the retry runs with the lock still held.  `some` returns the
granted key, the clock at the grant, and the limiter state; `none` is a call
that never returns a grant (deadlock, exhausted model budget, or the
`ValueError` Python would raise taking `min` of an empty sequence). -/
def wait_if_needed : Nat → RateLimiter → ℤ → Bool → Option (Nat × ℤ × RateLimiter)
  | _, _, _, true => none
  | 0, _, _, false => none
  | fuel + 1, rl, now, false =>
      match try_acquire rl now with
      | (some key_idx, rl') => some (key_idx, now, rl')
      | (none, rl') =>
          match oldestEntry rl' with
          | none => none
          | some oldest =>
              let sleep_time := 60 - (now - oldest) + 1
              wait_if_needed fuel rl' (now + sleep_time) true

/-- Issue a sequence of back-to-back (non-blocking) acquisitions at the given
instants; yields the grant decision of each call. -/
def runCalls (rl : RateLimiter) : List ℤ → RateLimiter × List (Option Nat)
  | [] => (rl, [])
  | t :: ts =>
      let (res, rl') := try_acquire rl t
      let (rlF, ress) := runCalls rl' ts
      (rlF, res :: ress)

/-- The instants at which a sequence of acquisition calls is granted key `k`. -/
def grantTimes (rl : RateLimiter) (k : Nat) : List ℤ → List ℤ
  | [] => []
  | t :: ts =>
      let (res, rl') := try_acquire rl t
      (if res = some k then [t] else []) ++ grantTimes rl' k ts

/-! ## General lemmas -/

theorem assocGet_mem {α : Type} (l : List (String × α)) (k : String) (v : α)
    (h : assocGet l k = some v) : (k, v) ∈ l := by
  induction l with
  | nil => simp [assocGet] at h
  | cons hd tl ih =>
      obtain ⟨k₀, v₀⟩ := hd
      by_cases h₀ : k₀ = k
      · subst h₀
        simp only [assocGet, if_pos rfl] at h
        simp [Option.some.inj h]
      · simp only [assocGet, if_neg h₀] at h
        exact List.mem_cons_of_mem _ (ih h)

theorem mem_assocSet {α : Type} (l : List (String × α)) (k : String) (v : α)
    (kv : String × α) (h : kv ∈ assocSet l k v) : kv = (k, v) ∨ kv ∈ l := by
  induction l with
  | nil => simp [assocSet] at h; simp [h]
  | cons hd tl ih =>
      obtain ⟨k₀, v₀⟩ := hd
      by_cases h₀ : k₀ = k
      · simp only [assocSet, if_pos h₀] at h
        rcases List.mem_cons.mp h with h | h
        · exact Or.inl h
        · exact Or.inr (List.mem_cons_of_mem _ h)
      · simp only [assocSet, if_neg h₀] at h
        rcases List.mem_cons.mp h with h | h
        · exact Or.inr (by simp [h])
        · rcases ih h with h | h
          · exact Or.inl h
          · exact Or.inr (List.mem_cons_of_mem _ h)


/-! ## Claim C1 — idempotence of the phase-completion operations -/

/-- **C1, counterexample.**  Calling `mark_detection_complete` twice with
identical arguments does not leave the persisted state the same as calling it
once: the second call increments `statistics.api_calls.gemini_flash` again
(2 after two calls vs 1 after one), so the persisted documents differ. -/
theorem C1_counterexample :
    (mark_detection_complete
        (mark_detection_complete (initSM 3 0)
          (fun p => if p = "a" then some "h1" else none) "a" true 1)
        (fun p => if p = "a" then some "h1" else none) "a" true
        1).disk.statistics.api_calls_gemini_flash = 2 ∧
    (mark_detection_complete (initSM 3 0)
        (fun p => if p = "a" then some "h1" else none) "a" true
        1).disk.statistics.api_calls_gemini_flash = 1 ∧
    (mark_detection_complete
        (mark_detection_complete (initSM 3 0)
          (fun p => if p = "a" then some "h1" else none) "a" true 1)
        (fun p => if p = "a" then some "h1" else none) "a" true 1).disk ≠
      (mark_detection_complete (initSM 3 0)
        (fun p => if p = "a" then some "h1" else none) "a" true 1).disk := by
  refine ⟨by decide, by decide, by decide⟩

/-- **C1 (amended).**  Calling a phase-completion operation twice with
identical arguments yields the identical stored phase record — the item table
of the document is unchanged by the second call — but the call-count
statistics are **not** protected from duplication: the second
`mark_detection_complete` increments `api_calls.gemini_flash` again, and the
second `mark_refactoring_complete` increments `api_calls.gemini_pro` again
whenever the model is `gemini`. -/
theorem C1_phase_completion_record_idempotent_stats_duplicated
    (s : SMState) (fs : FS) (p : String) (hs : Bool) (model : String)
    (prn : Option Nat) (pru : Option String) (ico : Bool) (now : Nat) :
    ((mark_detection_complete (mark_detection_complete s fs p hs now) fs p hs now).mem.files =
        (mark_detection_complete s fs p hs now).mem.files ∧
      (mark_detection_complete (mark_detection_complete s fs p hs now) fs p hs
            now).mem.statistics.api_calls_gemini_flash =
        (mark_detection_complete s fs p hs now).mem.statistics.api_calls_gemini_flash + 1) ∧
    ((mark_refactoring_complete (mark_refactoring_complete s fs p model prn pru ico now)
          fs p model prn pru ico now).mem.files =
        (mark_refactoring_complete s fs p model prn pru ico now).mem.files ∧
      (mark_refactoring_complete (mark_refactoring_complete s fs p model prn pru ico now)
            fs p model prn pru ico now).mem.statistics.api_calls_gemini_pro =
        (mark_refactoring_complete s fs p model prn pru ico
              now).mem.statistics.api_calls_gemini_pro +
          (if model = "gemini" then 1 else 0)) := by
  constructor
  · cases hg : assocGet s.mem.files p with
    | some st =>
        simp only [mark_detection_complete, _get_file_state, hg, putFile, save_ok,
          assocGet_assocSet_same]
        rw [assocSet_self _ _ _ (assocGet_assocSet_same _ _ _)]
        exact ⟨rfl, trivial⟩
    | none =>
        simp only [mark_detection_complete, _get_file_state, hg, putFile, save_ok,
          assocGet_assocSet_same]
        rw [assocSet_self _ _ _ (assocGet_assocSet_same _ _ _)]
        exact ⟨rfl, trivial⟩
  · by_cases hm : model = "gemini"
    · subst hm
      cases hg : assocGet s.mem.files p with
      | some st =>
          simp only [mark_refactoring_complete, _get_file_state, hg, putFile, save_ok,
            assocGet_assocSet_same, if_pos, reduceIte]
          rw [assocSet_self _ _ _ (assocGet_assocSet_same _ _ _)]
          exact ⟨rfl, trivial⟩
      | none =>
          simp only [mark_refactoring_complete, _get_file_state, hg, putFile, save_ok,
            assocGet_assocSet_same, if_pos, reduceIte]
          rw [assocSet_self _ _ _ (assocGet_assocSet_same _ _ _)]
          exact ⟨rfl, trivial⟩
    · cases hg : assocGet s.mem.files p with
      | some st =>
          simp only [mark_refactoring_complete, _get_file_state, hg, putFile, save_ok,
            assocGet_assocSet_same, if_neg hm]
          rw [assocSet_self _ _ _ (assocGet_assocSet_same _ _ _),
            assocSet_self _ _ _ (assocGet_assocSet_same _ _ _)]
          exact ⟨rfl, rfl⟩
      | none =>
          simp only [mark_refactoring_complete, _get_file_state, hg, putFile, save_ok,
            assocGet_assocSet_same, if_neg hm]
          rw [assocSet_self _ _ _ (assocGet_assocSet_same _ _ _),
            assocSet_self _ _ _ (assocGet_assocSet_same _ _ _)]
          exact ⟨rfl, rfl⟩

/-! ## Claim C2 — error propagation of `_save_state` -/

/-- **C2, counterexample.**  On an unrecoverable write failure (here: an
exception while writing the temporary file), `_save_state` does not propagate
any exception to its caller: the call returns normally. -/
theorem C2_counterexample :
    (save_state (initSM 3 0) 1 (WriteOutcome.raiseDuring "No space left on device")).2 =
      none := by
  decide

/-- **C2 (amended).**  For every document and every write outcome — including
every unrecoverable write failure — `_save_state` returns normally: the
`except Exception` clause catches the error and only prints a warning, so no
`IOError` reaches the caller. -/
theorem C2_save_never_raises (s : SMState) (now : Nat) (w : WriteOutcome) :
    (save_state s now w).2 = none := by
  cases w <;> simp [save_state, save_state_try]

/-! ## Claim C3 — write-through persistence -/

/-- **C3, counterexample.**  The `should_process` branch that resets a
completed-but-changed item to pending mutates the in-memory document but does
not persist it: starting from a fully persisted state where item `"a"` was
completed with digest `"h1"`, invoking `should_process` after the content
digest changed to `"h2"` returns with the in-memory document different from
the persisted one (status `pending` in memory, `completed` on disk). -/
theorem C3_counterexample :
    ((should_process
        (applyOps
          [Op.opStartProcessing (fun p => if p = "a" then some "h1" else none) "a" 1,
           Op.opMarkCompleted (fun p => if p = "a" then some "h1" else none) "a" 2]
          (initSM 3 0))
        (fun p => if p = "a" then some "h2" else none) "a" 3).1.mem ≠
      (should_process
        (applyOps
          [Op.opStartProcessing (fun p => if p = "a" then some "h1" else none) "a" 1,
           Op.opMarkCompleted (fun p => if p = "a" then some "h1" else none) "a" 2]
          (initSM 3 0))
        (fun p => if p = "a" then some "h2" else none) "a" 3).1.disk) ∧
    ((should_process
        (applyOps
          [Op.opStartProcessing (fun p => if p = "a" then some "h1" else none) "a" 1,
           Op.opMarkCompleted (fun p => if p = "a" then some "h1" else none) "a" 2]
          (initSM 3 0))
        (fun p => if p = "a" then some "h2" else none) "a" 3).1.mem.files.map
          (fun kv => (kv.1, kv.2.status)) = [("a", "pending")]) ∧
    ((should_process
        (applyOps
          [Op.opStartProcessing (fun p => if p = "a" then some "h1" else none) "a" 1,
           Op.opMarkCompleted (fun p => if p = "a" then some "h1" else none) "a" 2]
          (initSM 3 0))
        (fun p => if p = "a" then some "h2" else none) "a" 3).1.disk.files.map
          (fun kv => (kv.1, kv.2.status)) = [("a", "completed")]) := by
  refine ⟨by decide, by decide, by decide⟩

/-- **C3 (amended).**  Every mutating operation of the controller *except*
`should_process` persists the document before returning: starting from any
synchronized state, after any such operation the persisted document equals the
in-memory document.  `should_process` is the exception: its
completed-but-changed branch resets the item's status and fingerprint (and its
first touch of a never-seen item creates a record) in memory only, without
persisting. -/
theorem C3_mutators_persist_before_returning (op : Op) (s : SMState)
    (hop : alwaysSaves op = true) (hsync : s.disk = s.mem) :
    (applyOp op s).disk = (applyOp op s).mem := by
  cases op with
  | opShouldProcess fs p now => simp [alwaysSaves] at hop
  | opStartProcessing fs p now => simp [applyOp, start_processing, save_ok]
  | opMarkDetectionComplete fs p hs now => simp [applyOp, mark_detection_complete, save_ok]
  | opMarkRefactoringComplete fs p model prn pru ico now =>
      simp [applyOp, mark_refactoring_complete, save_ok]
  | opMarkCompleted fs p now => simp [applyOp, mark_completed, save_ok]
  | opMarkFailed fs p err phase now => simp [applyOp, mark_failed, save_ok]
  | opMarkSkipped fs p reason now => simp [applyOp, mark_skipped, save_ok]
  | opTrackSmellStats smells now => simp [applyOp, track_smell_stats, save_ok]
  | opCompleteRun now =>
      simp only [applyOp, complete_run]
      cases h : s.mem.runs.getLast? with
      | none => simpa [h] using hsync
      | some lastRun =>
          by_cases hc : lastRun.completed_at = none
          · simp [h, hc, save_ok]
          · simpa [h, hc] using hsync

/-- **C3, witness.** -/
theorem C3_witness :
    alwaysSaves (Op.opStartProcessing (fun _ => none) "a" 1) = true ∧
    (applyOp (Op.opStartProcessing (fun _ => none) "a" 1) (initSM 3 0)).disk =
      (applyOp (Op.opStartProcessing (fun _ => none) "a" 1) (initSM 3 0)).mem :=
  ⟨rfl, C3_mutators_persist_before_returning _ _ rfl rfl⟩

/-! ## Claim C4 — retry ceiling -/

/-- **C4, counterexample.**  The not-eligible reason for an item that failed
`max_retries` times is the literal `max_retries_exceeded`, not
`retries_exhausted` as the claim states: after three failed attempts with
`max_retries = 3`, `should_process` returns `(False, 'max_retries_exceeded')`. -/
theorem C4_counterexample :
    (should_process
        (applyOps
          [Op.opStartProcessing (fun _ => some "h1") "a" 1,
           Op.opMarkFailed (fun _ => some "h1") "a" "boom" "detection" 2,
           Op.opStartProcessing (fun _ => some "h1") "a" 3,
           Op.opMarkFailed (fun _ => some "h1") "a" "boom" "detection" 4,
           Op.opStartProcessing (fun _ => some "h1") "a" 5,
           Op.opMarkFailed (fun _ => some "h1") "a" "boom" "detection" 6]
          (initSM 3 0))
        (fun _ => some "h1") "a" 7).2 = (false, "max_retries_exceeded") ∧
    ("max_retries_exceeded" : String) ≠ "retries_exhausted" := by
  refine ⟨by decide, by decide⟩

/-- **C4 (amended).**  For an existing item with status `failed` whose file
exists: `should_process` returns not-eligible with reason
`max_retries_exceeded` (the source's literal for retries-exhausted) when
`attempts = max_retries`, and eligible with reason `ready` when
`attempts = max_retries - 1`.  For *every* call of `mark_failed` — whatever
the item's current status, including the typical call on a `processing`
item, and including a never-seen item (whose record is created on the fly) —
when the operated-on record's `attempts ≥ max_retries` the status is
finalized as `failed` and the failure statistic is incremented, and when its
`attempts < max_retries` the status is reset to `pending` and the failure
statistic is unchanged. -/
theorem C4_retry_ceiling (s : SMState) (fs : FS) (p : String) :
    (∀ (st : FileState) (now : Nat), assocGet s.mem.files p = some st →
      (fs p).isSome = true → st.status = "failed" → st.attempts = s.max_retries →
      (should_process s fs p now).2 = (false, "max_retries_exceeded")) ∧
    (∀ (st : FileState) (now : Nat), assocGet s.mem.files p = some st →
      (fs p).isSome = true → st.status = "failed" → st.attempts + 1 = s.max_retries →
      (should_process s fs p now).2 = (true, "ready")) ∧
    (∀ (err phase : String) (now : Nat),
      (s.max_retries ≤ (_get_file_state s.mem fs p now).2.attempts →
        (assocGet (mark_failed s fs p err phase now).mem.files p).map FileState.status =
          some "failed" ∧
        (mark_failed s fs p err phase now).mem.statistics.failed =
          s.mem.statistics.failed + 1) ∧
      ((_get_file_state s.mem fs p now).2.attempts < s.max_retries →
        (assocGet (mark_failed s fs p err phase now).mem.files p).map FileState.status =
          some "pending" ∧
        (mark_failed s fs p err phase now).mem.statistics.failed =
          s.mem.statistics.failed)) := by
  refine ⟨fun st now hget hex hstatus hat => ?_, fun st now hget hex hstatus hat => ?_,
    fun err phase now => ⟨fun hge => ?_, fun hlt => ?_⟩⟩
  · have hnotNone : (fs p).isNone = false := by
      cases hfp : fs p <;> simp_all
    have hne : ¬ st.status = "completed" := by rw [hstatus]; decide
    simp [should_process, _get_file_state, hget, hnotNone, hne, hstatus, hat]
  · have hnotNone : (fs p).isNone = false := by
      cases hfp : fs p <;> simp_all
    have hne : ¬ st.status = "completed" := by rw [hstatus]; decide
    have : ¬ (st.status = "failed" ∧ s.max_retries ≤ st.attempts) := by
      rintro ⟨-, hle⟩; omega
    simp [should_process, _get_file_state, hget, hnotNone, hne, this]
  · cases hget : assocGet s.mem.files p with
    | some st =>
        rw [show (_get_file_state s.mem fs p now).2 = st from by
          simp [_get_file_state, hget]] at hge
        simp [mark_failed, _get_file_state, hget, putFile, save_ok, hge,
          assocGet_assocSet_same]
    | none =>
        rw [show (_get_file_state s.mem fs p now).2 = freshFileState fs p now from by
          simp [_get_file_state, hget]] at hge
        simp [mark_failed, _get_file_state, hget, putFile, save_ok, hge,
          assocGet_assocSet_same]
  · cases hget : assocGet s.mem.files p with
    | some st =>
        rw [show (_get_file_state s.mem fs p now).2 = st from by
          simp [_get_file_state, hget]] at hlt
        have : ¬ s.max_retries ≤ st.attempts := by omega
        simp [mark_failed, _get_file_state, hget, putFile, save_ok, this,
          assocGet_assocSet_same]
    | none =>
        rw [show (_get_file_state s.mem fs p now).2 = freshFileState fs p now from by
          simp [_get_file_state, hget]] at hlt
        have : ¬ s.max_retries ≤ (freshFileState fs p now).attempts := by omega
        simp [mark_failed, _get_file_state, hget, putFile, save_ok, this,
          assocGet_assocSet_same]

/-- Digest environment used by the concrete instantiations below. -/
def fsH1 : FS := fun _ => some "h1"

/-- A terminally failed item record (3 attempts recorded). -/
def c4st : FileState :=
  { freshFileState fsH1 "a" 0 with status := "failed", attempts := 3 }

/-- A manager state holding only the terminally failed item `"a"`. -/
def c4s : SMState :=
  { mem := { create_new_state 0 with files := [("a", c4st)] }
    disk := create_new_state 0, max_retries := 3 }

/-- An item in the middle of its second attempt (the typical `mark_failed`
caller state). -/
def c4procSt : FileState :=
  { freshFileState fsH1 "a" 0 with status := "processing", attempts := 1 }

/-- A manager state holding only the in-flight item `"a"`. -/
def c4procS : SMState :=
  { mem := { create_new_state 0 with files := [("a", c4procSt)] }
    disk := create_new_state 0, max_retries := 3 }

/-- **C4, witness.**  Exercises the retries-exhausted eligibility refusal, the
finalizing `mark_failed` on an item at the ceiling, and the reset-to-pending
`mark_failed` on a `processing` item mid-retry. -/
theorem C4_witness :
    ((should_process c4s fsH1 "a" 9).2 = (false, "max_retries_exceeded")) ∧
    ((assocGet (mark_failed c4s fsH1 "a" "boom" "detection" 9).mem.files "a").map
        FileState.status = some "failed" ∧
      (mark_failed c4s fsH1 "a" "boom" "detection" 9).mem.statistics.failed =
        c4s.mem.statistics.failed + 1) ∧
    ((assocGet (mark_failed c4procS fsH1 "a" "boom" "detection" 9).mem.files "a").map
        FileState.status = some "pending" ∧
      (mark_failed c4procS fsH1 "a" "boom" "detection" 9).mem.statistics.failed =
        c4procS.mem.statistics.failed) :=
  ⟨(C4_retry_ceiling c4s fsH1 "a").1 c4st 9 (by decide) (by decide) (by decide) (by decide),
   ((C4_retry_ceiling c4s fsH1 "a").2.2 "boom" "detection" 9).1 (by decide),
   ((C4_retry_ceiling c4procS fsH1 "a").2.2 "boom" "detection" 9).2 (by decide)⟩

/-! ## Claim C5 — content-change detection for completed items -/

/-- **C5, counterexample.**  When a completed item's content digest has
changed, `should_process` returns eligible with the literal reason
`file_changed`, not `content_changed` as the claim states. -/
theorem C5_counterexample :
    (should_process
        (applyOps
          [Op.opStartProcessing (fun p => if p = "a" then some "h1" else none) "a" 1,
           Op.opMarkCompleted (fun p => if p = "a" then some "h1" else none) "a" 2]
          (initSM 3 0))
        (fun p => if p = "a" then some "h2" else none) "a" 3).2 =
      (true, "file_changed") ∧
    ((true, "file_changed") : Bool × String) ≠ (true, "content_changed") := by
  refine ⟨by decide, by decide⟩

/-- **C5 (amended).**  For an existing item with status `completed` and stored
fingerprint `st.file_hash`: when the current digest equals the stored one,
`should_process` returns not-eligible with reason `already_completed` and
leaves the state untouched; when it differs, it returns eligible with the
literal reason `file_changed` (the claim's `content_changed`), resets the
stored status to `pending` and updates the stored fingerprint to the current
digest. -/
theorem C5_completed_fingerprint (s : SMState) (fs : FS) (p : String) (st : FileState)
    (h : String) (hget : assocGet s.mem.files p = some st) (hfs : fs p = some h)
    (hstatus : st.status = "completed") :
    (∀ now, h = st.file_hash →
      should_process s fs p now = (s, false, "already_completed")) ∧
    (∀ now, h ≠ st.file_hash →
      (should_process s fs p now).2 = (true, "file_changed") ∧
      assocGet (should_process s fs p now).1.mem.files p =
        some { st with status := "pending", file_hash := h }) := by
  have hhash : get_file_hash fs p = h := by simp [get_file_hash, hfs]
  refine ⟨fun now heq => ?_, fun now hne => ?_⟩
  · simp [should_process, _get_file_state, hget, hfs, hstatus, hhash, heq]
  · simp [should_process, _get_file_state, hget, hfs, hstatus, hhash, hne, putFile,
      assocGet_assocSet_same]

/-- A completed item record with stored fingerprint `"h1"`. -/
def c5st : FileState := { freshFileState fsH1 "a" 0 with status := "completed" }

/-- A manager state holding only the completed item `"a"`. -/
def c5s : SMState :=
  { mem := { create_new_state 0 with files := [("a", c5st)] }
    disk := create_new_state 0, max_retries := 3 }

/-- **C5, witness.** -/
theorem C5_witness :
    fsH1 "a" = some "h1" ∧ c5st.status = "completed" ∧ c5st.file_hash = "h1" ∧
    should_process c5s fsH1 "a" 9 = (c5s, false, "already_completed") :=
  ⟨rfl, by decide, by decide,
   (C5_completed_fingerprint c5s fsH1 "a" c5st "h1" (by decide) rfl (by decide)).1 9
     (by decide)⟩

/-! ## Claim C6 — fail-open eligibility -/

/-- **C6, counterexample.**  A never-previously-seen item whose file does not
exist is *not* eligible with reason `ready`: `should_process` returns the
fourth not-eligible outcome `(False, 'file_not_found')`, which the claim's
three-case enumeration omits. -/
theorem C6_counterexample :
    assocGet (initSM 3 0).mem.files "a" = none ∧
    (should_process (initSM 3 0) (fun _ => none) "a" 1).2 =
      (false, "file_not_found") := by
  refine ⟨by decide, by decide⟩

/-- Exhaustive case split of `should_process`'s result. -/
theorem should_process_cases (s : SMState) (fs : FS) (p : String) (now : Nat) :
    (should_process s fs p now).2 = (false, "file_not_found") ∨
    (should_process s fs p now).2 = (false, "already_completed") ∨
    (should_process s fs p now).2 = (false, "max_retries_exceeded") ∨
    (should_process s fs p now).2 = (true, "ready") ∨
    (should_process s fs p now).2 = (true, "file_changed") := by
  cases hg : assocGet s.mem.files p with
  | some st =>
      simp only [should_process, _get_file_state, hg]
      split_ifs <;> simp
  | none =>
      simp only [should_process, _get_file_state, hg]
      split_ifs <;> simp

/-- **C6 (amended).**  For every item never previously seen whose file exists,
`should_process` returns eligible with reason `ready`.  `should_process`
returns not-eligible in exactly four cases — the claim's three
(`already_completed`, the content-changed handling, retries exhausted as
`max_retries_exceeded`) plus `file_not_found` when the path does not exist —
and every eligible result carries reason `ready` or `file_changed`. -/
theorem C6_fail_open (s : SMState) (fs : FS) (p : String) (now : Nat) :
    (assocGet s.mem.files p = none → (fs p).isSome = true →
      (should_process s fs p now).2 = (true, "ready")) ∧
    ((should_process s fs p now).2.1 = false →
      (should_process s fs p now).2.2 = "file_not_found" ∨
      (should_process s fs p now).2.2 = "already_completed" ∨
      (should_process s fs p now).2.2 = "max_retries_exceeded") ∧
    ((should_process s fs p now).2.1 = true →
      (should_process s fs p now).2.2 = "ready" ∨
      (should_process s fs p now).2.2 = "file_changed") := by
  refine ⟨fun hget hex => ?_, fun hfalse => ?_, fun htrue => ?_⟩
  · have hnotNone : (fs p).isNone = false := by
      cases hfp : fs p <;> simp_all
    simp [should_process, _get_file_state, hget, hnotNone, freshFileState]
  · rcases should_process_cases s fs p now with h | h | h | h | h <;> rw [h] <;> simp_all
  · rcases should_process_cases s fs p now with h | h | h | h | h <;> rw [h] <;> simp_all

/-- **C6, witness.** -/
theorem C6_witness :
    assocGet (initSM 3 0).mem.files "b" = none ∧
    (should_process (initSM 3 0) (fun _ => some "h1") "b" 1).2 = (true, "ready") :=
  ⟨by decide, (C6_fail_open (initSM 3 0) (fun _ => some "h1") "b" 1).1 (by decide) rfl⟩

/-! ## Claim C10 — `failed` status implies exhausted retries -/

/-- Document invariant: every item recorded with status `failed` has at least
`mr` attempts. -/
def FailedImpliesExhausted (mr : Nat) (doc : Document) : Prop :=
  ∀ kv ∈ doc.files, kv.2.status = "failed" → mr ≤ kv.2.attempts

theorem failedInv_set {mr : Nat} {files : List (String × FileState)}
    (p : String) (st : FileState)
    (h : ∀ kv ∈ files, kv.2.status = "failed" → mr ≤ kv.2.attempts)
    (hst : st.status = "failed" → mr ≤ st.attempts) :
    ∀ kv ∈ assocSet files p st, kv.2.status = "failed" → mr ≤ kv.2.attempts := by
  intro kv hkv
  rcases mem_assocSet _ _ _ _ hkv with rfl | hkv
  · exact hst
  · exact h kv hkv

theorem failedInv_get {mr : Nat} {doc : Document} (fs : FS) (p : String) (now : Nat)
    (h : FailedImpliesExhausted mr doc) :
    (_get_file_state doc fs p now).2.status = "failed" →
      mr ≤ (_get_file_state doc fs p now).2.attempts := by
  cases hg : assocGet doc.files p with
  | none => simp [_get_file_state, hg, freshFileState]
  | some st =>
      simp only [_get_file_state, hg]
      exact h _ (assocGet_mem _ _ _ hg)

theorem failedInv_getdoc {mr : Nat} {doc : Document} (fs : FS) (p : String) (now : Nat)
    (h : FailedImpliesExhausted mr doc) :
    FailedImpliesExhausted mr (_get_file_state doc fs p now).1 := by
  cases hg : assocGet doc.files p with
  | none =>
      simp only [_get_file_state, hg]
      exact failedInv_set p _ h (by simp [freshFileState])
  | some st => simpa [_get_file_state, hg] using h

theorem applyOp_failedInv (op : Op) (s : SMState)
    (h : FailedImpliesExhausted s.max_retries s.mem) :
    FailedImpliesExhausted s.max_retries (applyOp op s).mem := by
  cases op with
  | opShouldProcess fs p now =>
      have hd := failedInv_getdoc fs p now h
      simp only [applyOp, should_process]
      split_ifs with h1 h2 h3 h4
      · exact hd
      · intro kv hkv
        simp only [putFile] at hkv
        rcases mem_assocSet _ _ _ _ hkv with rfl | hkv
        · simp
        · exact hd kv hkv
      · exact hd
      · exact hd
      · exact hd
  | opStartProcessing fs p now =>
      have hd := failedInv_getdoc fs p now h
      simp only [applyOp, start_processing, putFile, save_ok]
      exact failedInv_set p _ hd (by simp)
  | opMarkDetectionComplete fs p hs now =>
      have hd := failedInv_getdoc fs p now h
      simp only [applyOp, mark_detection_complete, putFile, save_ok]
      exact failedInv_set p _ hd (failedInv_get fs p now h)
  | opMarkRefactoringComplete fs p model prn pru ico now =>
      have hd := failedInv_getdoc fs p now h
      simp only [applyOp, mark_refactoring_complete, putFile, save_ok]
      split_ifs <;> exact failedInv_set p _ hd (failedInv_get fs p now h)
  | opMarkCompleted fs p now =>
      have hd := failedInv_getdoc fs p now h
      simp only [applyOp, mark_completed, putFile, save_ok]
      cases hst : (_get_file_state s.mem fs p now).2.start_time <;>
        · simp only [hst]
          exact failedInv_set p _ hd (by simp)
  | opMarkFailed fs p err phase now =>
      have hd := failedInv_getdoc fs p now h
      simp only [applyOp, mark_failed, putFile, save_ok]
      by_cases hc : s.max_retries ≤ (_get_file_state s.mem fs p now).2.attempts
      · simp only [if_pos hc]
        exact failedInv_set p _ hd (by simpa using hc)
      · simp only [if_neg hc]
        exact failedInv_set p _ hd (by simp)
  | opMarkSkipped fs p reason now =>
      have hd := failedInv_getdoc fs p now h
      simp only [applyOp, mark_skipped, putFile, save_ok]
      exact failedInv_set p _ hd (by simp)
  | opTrackSmellStats smells now =>
      simpa [applyOp, track_smell_stats, save_ok] using h
  | opCompleteRun now =>
      simp only [applyOp, complete_run]
      cases hg : s.mem.runs.getLast? with
      | none => simpa [hg] using h
      | some lastRun =>
          by_cases hc : lastRun.completed_at = none
          · simpa [hg, hc, save_ok] using h
          · simpa [hg, hc] using h

theorem applyOp_preserves_max_retries (op : Op) (s : SMState) :
    (applyOp op s).max_retries = s.max_retries := by
  cases op with
  | opShouldProcess fs p now =>
      simp only [applyOp, should_process]
      split_ifs <;> rfl
  | opStartProcessing fs p now => rfl
  | opMarkDetectionComplete fs p hs now => rfl
  | opMarkRefactoringComplete fs p model prn pru ico now =>
      simp only [applyOp, mark_refactoring_complete, putFile, save_ok]
      split_ifs <;> rfl
  | opMarkCompleted fs p now =>
      simp only [applyOp, mark_completed, putFile, save_ok]
  | opMarkFailed fs p err phase now =>
      simp only [applyOp, mark_failed, putFile, save_ok]
  | opMarkSkipped fs p reason now => rfl
  | opTrackSmellStats smells now => rfl
  | opCompleteRun now =>
      simp only [applyOp, complete_run]
      cases s.mem.runs.getLast? with
      | none => rfl
      | some lastRun =>
          by_cases hc : lastRun.completed_at = none
          · simp [hc, save_ok]
          · simp [hc]

theorem applyOps_failedInv (ops : List Op) (s : SMState)
    (h : FailedImpliesExhausted s.max_retries s.mem) :
    FailedImpliesExhausted s.max_retries (applyOps ops s).mem ∧
      (applyOps ops s).max_retries = s.max_retries := by
  induction ops generalizing s with
  | nil => exact ⟨h, rfl⟩
  | cons op rest ih =>
      have h1 := applyOp_failedInv op s h
      have h2 := applyOp_preserves_max_retries op s
      have := ih (applyOp op s) (by rw [h2]; exact h1)
      rw [h2] at this
      exact this

/-- Under the invariant, a terminally failed item is never eligible, and
`should_process` does not modify the manager state on that path. -/
theorem should_process_failed_item (s : SMState) (fs : FS) (p : String) (now : Nat)
    (st : FileState) (hget : assocGet s.mem.files p = some st)
    (hst : st.status = "failed") (hinv : s.max_retries ≤ st.attempts) :
    (should_process s fs p now).2.1 = false ∧ (should_process s fs p now).1 = s := by
  have hne : ¬ st.status = "completed" := by rw [hst]; decide
  cases hfp : fs p with
  | none => simp [should_process, _get_file_state, hget, hfp]
  | some d => simp [should_process, _get_file_state, hget, hfp, hne, hst, hinv]

/-- **C10 (confirmed).**  In every state reachable by any (reset-free)
sequence of controller operations, every item with status `failed` has at
least `max_retries` attempts; consequently every entry of the
terminally-failed listing `get_failed_files` records at least `max_retries`
attempts, and a failed item is never again eligible: `should_process` returns
not-eligible for it (and leaves the state unchanged), the
content-change re-eligibility path applying only to `completed` items. -/
theorem C10_failed_means_retries_exhausted (mr now0 : Nat) (ops : List Op) :
    FailedImpliesExhausted mr (applyOps ops (initSM mr now0)).mem ∧
    (∀ e ∈ get_failed_files (applyOps ops (initSM mr now0)).mem, mr ≤ e.attempts) ∧
    (∀ (fs : FS) (p : String) (now : Nat) (st : FileState),
      assocGet (applyOps ops (initSM mr now0)).mem.files p = some st →
      st.status = "failed" →
      (should_process (applyOps ops (initSM mr now0)) fs p now).2.1 = false ∧
        (should_process (applyOps ops (initSM mr now0)) fs p now).1 =
          applyOps ops (initSM mr now0)) := by
  have h0 : FailedImpliesExhausted (initSM mr now0).max_retries (initSM mr now0).mem := by
    intro kv hkv
    simp [initSM, create_new_state, save_ok] at hkv
  obtain ⟨hinv, hmr⟩ := applyOps_failedInv ops (initSM mr now0) h0
  have hmr' : (initSM mr now0).max_retries = mr := rfl
  rw [hmr'] at hinv hmr
  refine ⟨hinv, ?_, ?_⟩
  · intro e he
    rcases List.mem_filterMap.mp he with ⟨kv, hkv, hf⟩
    by_cases hst : kv.2.status = "failed"
    · simp only [hst, if_pos] at hf
      have := hinv kv hkv hst
      cases hf
      simpa using this
    · simp [hst] at hf
  · intro fs p now st hget hst
    have hle : mr ≤ st.attempts := hinv (p, st) (assocGet_mem _ _ _ hget) hst
    have := should_process_failed_item (applyOps ops (initSM mr now0)) fs p now st hget hst
      (by rw [hmr]; exact hle)
    exact this

/-- **C10, witness.** -/
theorem C10_witness :
    3 ≤ (FailedEntry.mk "a" 3 "boom" "detection").attempts :=
  (C10_failed_means_retries_exhausted 3 0
      [Op.opStartProcessing fsH1 "a" 1,
       Op.opMarkFailed fsH1 "a" "boom" "detection" 2,
       Op.opStartProcessing fsH1 "a" 3,
       Op.opMarkFailed fsH1 "a" "boom" "detection" 4,
       Op.opStartProcessing fsH1 "a" 5,
       Op.opMarkFailed fsH1 "a" "boom" "detection" 6]).2.1
    (FailedEntry.mk "a" 3 "boom" "detection") (by decide)

/-! ## Claim C9 — `completed` status vs completed phase records -/

/-- All phase records of an item (detection and every refactoring record)
are completed. -/
def phasesCompleteB (st : FileState) : Bool :=
  st.detection.completed && st.refactoring.gemini.completed &&
    st.refactoring.others.all (fun kv => kv.2.completed)

/-- Document invariant: every item with status `completed` has all phase
records completed. -/
def CompletedImpliesPhases (doc : Document) : Prop :=
  ∀ kv ∈ doc.files, kv.2.status = "completed" → phasesCompleteB kv.2 = true

/-- **C9, counterexample.**  `mark_completed` does not itself require or
establish phase completion: invoking it on a never-seen item yields a
reachable state whose item has status `completed` while its detection record
still has `completed == false`, contradicting the claimed invariant over
arbitrary operation sequences. -/
theorem C9_counterexample :
    ((assocGet (applyOp (Op.opMarkCompleted fsH1 "a" 1) (initSM 3 0)).mem.files "a").map
        FileState.status = some "completed") ∧
    ((assocGet (applyOp (Op.opMarkCompleted fsH1 "a" 1) (initSM 3 0)).mem.files "a").map
        (fun st => st.detection.completed) = some false) ∧
    ((assocGet (applyOp (Op.opMarkCompleted fsH1 "a" 1) (initSM 3 0)).mem.files "a").map
        phasesCompleteB = some false) := by
  refine ⟨by decide, by decide, by decide⟩

/-- Guard describing the orchestrator's discipline: `mark_completed` is only
invoked when the item's phase records are all completed (`main.py` reaches it
after detection and the gemini refactoring have been marked).  All other
operations are unrestricted. -/
def opGuard (op : Op) (s : SMState) : Prop :=
  match op with
  | .opMarkCompleted fs p now => phasesCompleteB (_get_file_state s.mem fs p now).2 = true
  | _ => True

/-- States reachable from a fresh manager by guarded operation sequences. -/
inductive GReach (mr now0 : Nat) : SMState → Prop where
  | init : GReach mr now0 (initSM mr now0)
  | step {s : SMState} (op : Op) : GReach mr now0 s → opGuard op s →
      GReach mr now0 (applyOp op s)

theorem completedInv_set {files : List (String × FileState)} (p : String)
    (st : FileState)
    (h : ∀ kv ∈ files, kv.2.status = "completed" → phasesCompleteB kv.2 = true)
    (hst : st.status = "completed" → phasesCompleteB st = true) :
    ∀ kv ∈ assocSet files p st, kv.2.status = "completed" →
      phasesCompleteB kv.2 = true := by
  intro kv hkv
  rcases mem_assocSet _ _ _ _ hkv with rfl | hkv
  · exact hst
  · exact h kv hkv

theorem completedInv_get {doc : Document} (fs : FS) (p : String) (now : Nat)
    (h : CompletedImpliesPhases doc) :
    (_get_file_state doc fs p now).2.status = "completed" →
      phasesCompleteB (_get_file_state doc fs p now).2 = true := by
  cases hg : assocGet doc.files p with
  | none => simp [_get_file_state, hg, freshFileState]
  | some st =>
      simp only [_get_file_state, hg]
      exact h _ (assocGet_mem _ _ _ hg)

theorem completedInv_getdoc {doc : Document} (fs : FS) (p : String) (now : Nat)
    (h : CompletedImpliesPhases doc) :
    CompletedImpliesPhases (_get_file_state doc fs p now).1 := by
  cases hg : assocGet doc.files p with
  | none =>
      simp only [_get_file_state, hg]
      exact completedInv_set p _ h (by simp [freshFileState])
  | some st => simpa [_get_file_state, hg] using h

theorem applyOp_completedInv (op : Op) (s : SMState)
    (h : CompletedImpliesPhases s.mem) (hg : opGuard op s) :
    CompletedImpliesPhases (applyOp op s).mem := by
  cases op with
  | opShouldProcess fs p now =>
      have hd := completedInv_getdoc fs p now h
      simp only [applyOp, should_process]
      split_ifs with h1 h2 h3 h4
      · exact hd
      · intro kv hkv
        simp only [putFile] at hkv
        rcases mem_assocSet _ _ _ _ hkv with rfl | hkv
        · simp
        · exact hd kv hkv
      · exact hd
      · exact hd
      · exact hd
  | opStartProcessing fs p now =>
      have hd := completedInv_getdoc fs p now h
      simp only [applyOp, start_processing, putFile, save_ok]
      exact completedInv_set p _ hd (by simp)
  | opMarkDetectionComplete fs p hs now =>
      have hd := completedInv_getdoc fs p now h
      have hget := completedInv_get fs p now h
      simp only [applyOp, mark_detection_complete, putFile, save_ok]
      refine completedInv_set p _ hd fun hst => ?_
      simp only at hst
      have hold := hget hst
      simp only [phasesCompleteB, Bool.and_eq_true] at hold ⊢
      exact ⟨⟨trivial, hold.1.2⟩, hold.2⟩
  | opMarkRefactoringComplete fs p model prn pru ico now =>
      have hd := completedInv_getdoc fs p now h
      have hget := completedInv_get fs p now h
      simp only [applyOp, mark_refactoring_complete, putFile, save_ok]
      have hrec : (if truthyNat prn = true then
          ({ completed := true, timestamp := some now, is_comment_only := ico
             pr_number := prn, pr_url := pru } : RefactoringRecord)
        else
          { completed := true, timestamp := some now, is_comment_only := ico
            pr_number := none, pr_url := none }).completed = true := by
        split_ifs <;> rfl
      by_cases hm : model = "gemini"
      · simp only [if_pos hm]
        refine completedInv_set p _ hd fun hst => ?_
        simp only at hst
        have hold := hget hst
        simp only [phasesCompleteB, Bool.and_eq_true] at hold ⊢
        exact ⟨⟨hold.1.1, hrec⟩, hold.2⟩
      · simp only [if_neg hm]
        refine completedInv_set p _ hd fun hst => ?_
        simp only at hst
        have hold := hget hst
        simp only [phasesCompleteB, Bool.and_eq_true] at hold ⊢
        exact ⟨hold.1, assocAll_set _ _ _ _ hold.2 hrec⟩
  | opMarkCompleted fs p now =>
      have hd := completedInv_getdoc fs p now h
      have hguard : phasesCompleteB (_get_file_state s.mem fs p now).2 = true := hg
      simp only [applyOp, mark_completed, putFile, save_ok]
      cases hst : (_get_file_state s.mem fs p now).2.start_time with
      | none =>
          simp only [hst]
          refine completedInv_set p _ hd fun _ => ?_
          simpa [phasesCompleteB] using hguard
      | some t0 =>
          simp only [hst]
          refine completedInv_set p _ hd fun _ => ?_
          simpa [phasesCompleteB] using hguard
  | opMarkFailed fs p err phase now =>
      have hd := completedInv_getdoc fs p now h
      simp only [applyOp, mark_failed, putFile, save_ok]
      by_cases hc : s.max_retries ≤ (_get_file_state s.mem fs p now).2.attempts
      · simp only [if_pos hc]
        exact completedInv_set p _ hd (by simp)
      · simp only [if_neg hc]
        exact completedInv_set p _ hd (by simp)
  | opMarkSkipped fs p reason now =>
      have hd := completedInv_getdoc fs p now h
      simp only [applyOp, mark_skipped, putFile, save_ok]
      exact completedInv_set p _ hd (by simp)
  | opTrackSmellStats smells now =>
      simpa [applyOp, track_smell_stats, save_ok] using h
  | opCompleteRun now =>
      simp only [applyOp, complete_run]
      cases hgl : s.mem.runs.getLast? with
      | none => simpa [hgl] using h
      | some lastRun =>
          by_cases hc : lastRun.completed_at = none
          · simpa [hgl, hc, save_ok] using h
          · simpa [hgl, hc] using h

/-- **C9 (amended).**  The invariant `status == completed → all phase records
completed` does not hold for arbitrary operation sequences, because
`mark_completed` does not check the phase records (see the counterexample).
It does hold for every state reachable under the orchestrator's discipline,
captured by `opGuard`: when `mark_completed` is only invoked on items whose
phase records are all completed, every reachable state satisfies the
invariant. -/
theorem C9_completed_invariant_guarded (mr now0 : Nat) (s : SMState)
    (h : GReach mr now0 s) : CompletedImpliesPhases s.mem := by
  induction h with
  | init =>
      intro kv hkv
      simp [initSM, create_new_state, save_ok] at hkv
  | step op hr hguard ih => exact applyOp_completedInv op _ ih hguard

/-- **C9, witness.** -/
theorem C9_witness :
    CompletedImpliesPhases
      (applyOp (Op.opMarkCompleted fsH1 "a" 4)
        (applyOp (Op.opMarkRefactoringComplete fsH1 "a" "gemini" (some 7) (some "u") false 3)
          (applyOp (Op.opMarkDetectionComplete fsH1 "a" true 2)
            (applyOp (Op.opStartProcessing fsH1 "a" 1) (initSM 3 0))))).mem :=
  C9_completed_invariant_guarded 3 0 _
    (GReach.step _
      (GReach.step _
        (GReach.step _ (GReach.step _ GReach.init trivial) trivial)
        trivial)
      (by unfold opGuard; decide))

/-! ## Rate limiter: auxiliary lemmas -/

theorem getD_set_self (l : List (List ℤ)) (i : Nat) (v : List ℤ) (h : i < l.length) :
    (l.set i v).getD i [] = v := by
  simp [List.getD_eq_getElem?_getD, List.getElem?_set_self', h]

theorem getD_set_ne (l : List (List ℤ)) (i j : Nat) (v : List ℤ) (h : i ≠ j) :
    (l.set i v).getD j [] = l.getD j [] := by
  simp [List.getD_eq_getElem?_getD, List.getElem?_set_ne h]

theorem getD_replicate_nil (n k : Nat) :
    (List.replicate n ([] : List ℤ)).getD k [] = [] := by
  simp only [List.getD_eq_getElem?_getD, List.getElem?_replicate]
  split_ifs <;> simp

/-- `cleanOld` removes an expired prefix: the original deque is that prefix
followed by the cleaned deque. -/
theorem cleanOld_split (now : ℤ) (l : List ℤ) :
    ∃ l₁, l = l₁ ++ cleanOld now l ∧ ∀ t ∈ l₁, now - t > 60 := by
  induction l with
  | nil => exact ⟨[], rfl, by simp⟩
  | cons t rest ih =>
      by_cases h : now - t > 60
      · obtain ⟨l₁, heq, hexp⟩ := ih
        refine ⟨t :: l₁, ?_, ?_⟩
        · have hc : cleanOld now (t :: rest) = cleanOld now rest := by
            simp [cleanOld, h]
          rw [hc, List.cons_append, ← heq]
        · intro u hu
          rcases List.mem_cons.mp hu with rfl | hu
          · exact h
          · exact hexp u hu
      · exact ⟨[], by simp [cleanOld, h], by simp⟩

theorem cleanOld_length_le (now : ℤ) (l : List ℤ) :
    (cleanOld now l).length ≤ l.length := by
  obtain ⟨l₁, heq, -⟩ := cleanOld_split now l
  conv_rhs => rw [heq]
  rw [List.length_append]
  omega

theorem cleanOld_idem (now : ℤ) (l : List ℤ) :
    cleanOld now (cleanOld now l) = cleanOld now l := by
  induction l with
  | nil => rfl
  | cons t rest ih =>
      by_cases h : now - t > 60
      · simp [cleanOld, h, ih]
      · simp [cleanOld, h]

theorem listMin_mem (l : List ℤ) (m : ℤ) (h : listMin l = some m) : m ∈ l := by
  induction l generalizing m with
  | nil => simp [listMin] at h
  | cons t rest ih =>
      simp only [listMin] at h
      cases hr : listMin rest with
      | none =>
          rw [hr] at h
          simp [Option.some.inj h]
      | some m' =>
          rw [hr] at h
          rcases min_choice t m' with hc | hc <;> rw [← Option.some.inj h, hc]
          · simp
          · exact List.mem_cons_of_mem _ (ih m' hr)

theorem listMin_isSome (l : List ℤ) (h : l ≠ []) : (listMin l).isSome = true := by
  cases l with
  | nil => simp at h
  | cons t rest =>
      simp only [listMin]
      cases listMin rest <;> simp

/-! ## Rate limiter: the per-credential rolling-window invariant

`KeyInv t₀ hist deque` relates a credential's full grant history `hist` to its
in-memory window `deque` at the instant `t₀`: the deque is a suffix of the
history, everything evicted from it was already outside the 60-second window
at `t₀`, and no recorded grant lies in the future. -/

def KeyInv (t₀ : ℤ) (hist deque : List ℤ) : Prop :=
  (∀ g ∈ hist, g ≤ t₀) ∧ ∃ pre, hist = pre ++ deque ∧ ∀ g ∈ pre, t₀ - g > 60

/-- No 60-second window contains more than `R` grants. -/
def WindowBound (R : Nat) (hist : List ℤ) : Prop :=
  ∀ lo : ℤ, hist.countP (fun t => decide (lo ≤ t ∧ t ≤ lo + 60)) ≤ R

theorem KeyInv.mono {t₀ t₁ : ℤ} {hist deque : List ℤ} (h : KeyInv t₀ hist deque)
    (hle : t₀ ≤ t₁) : KeyInv t₁ hist deque := by
  obtain ⟨hfut, pre, heq, hexp⟩ := h
  exact ⟨fun g hg => le_trans (hfut g hg) hle, pre, heq,
    fun g hg => by have := hexp g hg; linarith⟩

theorem KeyInv.clean {now : ℤ} {hist deque : List ℤ} (h : KeyInv now hist deque) :
    KeyInv now hist (cleanOld now deque) := by
  obtain ⟨hfut, pre, heq, hexp⟩ := h
  obtain ⟨l₁, hdq, hexp₁⟩ := cleanOld_split now deque
  refine ⟨hfut, pre ++ l₁, ?_, ?_⟩
  · conv_lhs => rw [heq, hdq]
    rw [List.append_assoc]
  · intro g hg
    rcases List.mem_append.mp hg with hg | hg
    · exact hexp g hg
    · exact hexp₁ g hg

/-- Recording a grant at `now`, allowed because the cleaned window holds
fewer than `R` entries, preserves both the key invariant and the rolling
window bound. -/
theorem KeyInv.grant {R : Nat} {now : ℤ} {hist deque : List ℤ}
    (h : KeyInv now hist deque) (hlen : (cleanOld now deque).length < R)
    (hwb : WindowBound R hist) :
    KeyInv now (hist ++ [now]) (cleanOld now deque ++ [now]) ∧
      WindowBound R (hist ++ [now]) := by
  obtain ⟨hfut, pre, heq, hexp⟩ := h
  obtain ⟨l₁, hdq, hexp₁⟩ := cleanOld_split now deque
  have hsplit : hist ++ [now] = (pre ++ l₁) ++ (cleanOld now deque ++ [now]) := by
    conv_lhs => rw [heq, hdq]
    simp [List.append_assoc]
  constructor
  · refine ⟨?_, pre ++ l₁, hsplit, ?_⟩
    · intro g hg
      rcases List.mem_append.mp hg with hg | hg
      · exact hfut g hg
      · simp at hg
        simp [hg]
    · intro g hg
      rcases List.mem_append.mp hg with hg | hg
      · exact hexp g hg
      · exact hexp₁ g hg
  · intro lo
    rw [List.countP_append]
    by_cases hpn : lo ≤ now ∧ now ≤ lo + 60
    · have hcount : hist.countP (fun t => decide (lo ≤ t ∧ t ≤ lo + 60)) ≤
          (cleanOld now deque).length := by
        have hz : (pre ++ l₁).countP (fun t => decide (lo ≤ t ∧ t ≤ lo + 60)) = 0 := by
          refine List.countP_eq_zero.mpr ?_
          intro g hg
          have hexpired : now - g > 60 := by
            rcases List.mem_append.mp hg with hg | hg
            · exact hexp g hg
            · exact hexp₁ g hg
          simp only [decide_eq_true_eq]
          rintro ⟨hg1, -⟩
          have : now ≤ lo + 60 := hpn.2
          linarith
        calc hist.countP (fun t => decide (lo ≤ t ∧ t ≤ lo + 60))
            = (pre ++ l₁).countP (fun t => decide (lo ≤ t ∧ t ≤ lo + 60)) +
              (cleanOld now deque).countP (fun t => decide (lo ≤ t ∧ t ≤ lo + 60)) := by
              rw [← List.countP_append, List.append_assoc, ← hdq, ← heq]
          _ = (cleanOld now deque).countP (fun t => decide (lo ≤ t ∧ t ≤ lo + 60)) := by
              rw [hz]; omega
          _ ≤ (cleanOld now deque).length := List.countP_le_length _
      have hone : ([now] : List ℤ).countP (fun t => decide (lo ≤ t ∧ t ≤ lo + 60)) ≤ 1 := by
        simpa using List.countP_le_length (l := [now]) _
      omega
    · have hz : ([now] : List ℤ).countP (fun t => decide (lo ≤ t ∧ t ≤ lo + 60)) = 0 := by
        refine List.countP_eq_zero.mpr ?_
        intro g hg
        simp only [List.mem_singleton] at hg
        subst hg
        simpa using hpn
      rw [hz]
      have := hwb lo
      omega

theorem tryAttempts_preserve (now : ℤ) :
    ∀ (attempts : List Nat) (rl : RateLimiter),
    (tryAttempts now rl attempts).2.num_keys = rl.num_keys ∧
      (tryAttempts now rl attempts).2.request_times.length = rl.request_times.length ∧
      (tryAttempts now rl attempts).2.rpm_limit = rl.rpm_limit := by
  intro attempts
  induction attempts with
  | nil => intro rl; exact ⟨rfl, rfl, rfl⟩
  | cons key_idx rest ih =>
      intro rl
      simp only [tryAttempts]
      by_cases hc : (cleanOld now (rl.request_times.getD key_idx [])).length < rl.rpm_limit
      · rw [if_pos hc]
        exact ⟨rfl, List.length_set _ _ _, rfl⟩
      · rw [if_neg hc]
        have := ih { rl with request_times :=
          rl.request_times.set key_idx (cleanOld now (rl.request_times.getD key_idx [])) }
        refine ⟨this.1, ?_, this.2.2⟩
        rw [this.2.1, List.length_set]

/-- One full pass of the acquisition loop preserves, for every credential, the
relation between its window and its grant history (the granted credential's
history gaining the grant instant) together with the rolling window bound. -/
theorem tryAttempts_hist (now : ℤ) (R : Nat) (hist : Nat → List ℤ) :
    ∀ (attempts : List Nat) (rl : RateLimiter), rl.rpm_limit = R →
    (∀ a ∈ attempts, a < rl.request_times.length) →
    (∀ k, KeyInv now (hist k) (rl.request_times.getD k []) ∧ WindowBound R (hist k)) →
    ∀ k, KeyInv now
        (hist k ++ if (tryAttempts now rl attempts).1 = some k then [now] else [])
        ((tryAttempts now rl attempts).2.request_times.getD k []) ∧
      WindowBound R
        (hist k ++ if (tryAttempts now rl attempts).1 = some k then [now] else []) := by
  intro attempts
  induction attempts with
  | nil =>
      intro rl hR hlt hki k
      simpa [tryAttempts] using hki k
  | cons key_idx rest ih =>
      intro rl hR hlt hki k
      have hkey_lt : key_idx < rl.request_times.length := hlt key_idx (by simp)
      simp only [tryAttempts]
      by_cases hc : (cleanOld now (rl.request_times.getD key_idx [])).length < rl.rpm_limit
      · -- the credential `key_idx` has capacity: the grant is recorded
        simp only [if_pos hc]
        by_cases hk : key_idx = k
        · subst hk
          have hgrant := KeyInv.grant (R := R) (hki key_idx).1 (hR ▸ hc) (hki key_idx).2
          refine ⟨?_, ?_⟩
          · show KeyInv now (hist key_idx ++ if some key_idx = some key_idx then [now] else [])
              ((rl.request_times.set key_idx
                (cleanOld now (rl.request_times.getD key_idx []) ++ [now])).getD key_idx [])
            rw [if_pos rfl, getD_set_self _ _ _ hkey_lt]
            exact hgrant.1
          · show WindowBound R
              (hist key_idx ++ if some key_idx = some key_idx then [now] else [])
            rw [if_pos rfl]
            exact hgrant.2
        · have hne : ¬ (some key_idx = some k) := by simp [hk]
          refine ⟨?_, ?_⟩
          · show KeyInv now (hist k ++ if some key_idx = some k then [now] else [])
              ((rl.request_times.set key_idx
                (cleanOld now (rl.request_times.getD key_idx []) ++ [now])).getD k [])
            rw [if_neg hne, getD_set_ne _ _ _ _ hk, List.append_nil]
            exact (hki k).1
          · show WindowBound R (hist k ++ if some key_idx = some k then [now] else [])
            rw [if_neg hne, List.append_nil]
            exact (hki k).2
      · -- no capacity: the window is evicted in place and the loop moves on
        simp only [if_neg hc]
        refine ih { rl with request_times :=
            rl.request_times.set key_idx (cleanOld now (rl.request_times.getD key_idx [])) }
          hR ?_ ?_ k
        · intro a ha
          have := hlt a (by simp [ha])
          simpa [List.length_set] using this
        · intro j
          by_cases hj : key_idx = j
          · subst hj
            refine ⟨?_, (hki key_idx).2⟩
            show KeyInv now (hist key_idx)
              ((rl.request_times.set key_idx
                (cleanOld now (rl.request_times.getD key_idx []))).getD key_idx [])
            rw [getD_set_self _ _ _ hkey_lt]
            exact (hki key_idx).1.clean
          · refine ⟨?_, (hki j).2⟩
            show KeyInv now (hist j)
              ((rl.request_times.set key_idx
                (cleanOld now (rl.request_times.getD key_idx []))).getD j [])
            rw [getD_set_ne _ _ _ _ hj]
            exact (hki j).1

theorem grantTimes_cons (rl : RateLimiter) (k : Nat) (t : ℤ) (ts : List ℤ) :
    grantTimes rl k (t :: ts) =
      (if (try_acquire rl t).1 = some k then [t] else []) ++
        grantTimes (try_acquire rl t).2 k ts := rfl

/-- Trace lemma: running any chronologically ordered sequence of acquisition
calls preserves every credential's rolling window bound on its extended grant
history. -/
theorem grantTimes_window (R : Nat) :
    ∀ (ts : List ℤ) (rl : RateLimiter) (hist : Nat → List ℤ) (t₀ : ℤ),
    List.Chain' (· ≤ ·) (t₀ :: ts) → rl.rpm_limit = R →
    rl.num_keys ≤ rl.request_times.length →
    (∀ k, KeyInv t₀ (hist k) (rl.request_times.getD k []) ∧ WindowBound R (hist k)) →
    ∀ k, WindowBound R (hist k ++ grantTimes rl k ts) := by
  intro ts
  induction ts with
  | nil =>
      intro rl hist t₀ hchain hR hlen hki k
      simpa [grantTimes] using (hki k).2
  | cons t ts' ih =>
      intro rl hist t₀ hchain hR hlen hki k
      obtain ⟨ht₀, hchain'⟩ := List.chain'_cons.mp hchain
      have hki_t : ∀ j, KeyInv t (hist j) (rl.request_times.getD j []) ∧
          WindowBound R (hist j) :=
        fun j => ⟨(hki j).1.mono ht₀, (hki j).2⟩
      have hlt : ∀ a ∈ (List.range rl.num_keys).map
          (fun attempt => (rl.current_key_index + attempt) % rl.num_keys),
          a < rl.request_times.length := by
        intro a ha
        rcases List.mem_map.mp ha with ⟨x, -, rfl⟩
        have hpos : 0 < rl.num_keys := by
          rcases Nat.eq_zero_or_pos rl.num_keys with h0 | h0
          · simp [h0] at ha
          · exact h0
        exact lt_of_lt_of_le (Nat.mod_lt _ hpos) hlen
      have hall := tryAttempts_hist t R hist _ rl hR hlt hki_t
      have hpres := tryAttempts_preserve t
        ((List.range rl.num_keys).map
          (fun attempt => (rl.current_key_index + attempt) % rl.num_keys)) rl
      have hstep := ih (try_acquire rl t).2
        (fun j => hist j ++ if (try_acquire rl t).1 = some j then [t] else []) t
        hchain' (by rw [show (try_acquire rl t).2 = (tryAttempts t rl _).2 from rfl]
                    exact hpres.2.2.trans hR)
        (by rw [show (try_acquire rl t).2 = (tryAttempts t rl _).2 from rfl]
            rw [hpres.1, hpres.2.1]
            exact hlen)
        hall k
      rw [grantTimes_cons, ← List.append_assoc]
      exact hstep

/-- **C7 (confirmed).**  For every configuration of `N` credentials with
per-credential ceiling `R`, along any chronologically ordered sequence of
acquisition calls the limiter records at most `R` grants per credential in any
rolling 60-second window; and grants rotate round-robin from the cursor: with
2 credentials at 2/min, four back-to-back acquisitions distribute as
credential 0, 1, 0, 1, and a fifth back-to-back call is refused admission
(it would have to block). -/
theorem C7_window_bound_and_round_robin (R N : Nat) (ts : List ℤ) (k : Nat) (lo : ℤ)
    (hchain : List.Chain' (· ≤ ·) ts) :
    (grantTimes (RateLimiter.init R N) k ts).countP
        (fun t => decide (lo ≤ t ∧ t ≤ lo + 60)) ≤ R ∧
    (runCalls (RateLimiter.init 2 2) [0, 0, 0, 0]).2 =
      [some 0, some 1, some 0, some 1] ∧
    (runCalls (RateLimiter.init 2 2) [0, 0, 0, 0, 0]).2 =
      [some 0, some 1, some 0, some 1, none] := by
  refine ⟨?_, by decide, by decide⟩
  have hinit : ∀ j, KeyInv (ts.head?.getD 0) ((fun _ => ([] : List ℤ)) j)
      ((RateLimiter.init R N).request_times.getD j []) ∧
      WindowBound R ((fun _ => ([] : List ℤ)) j) := by
    intro j
    refine ⟨⟨by simp, [], by simp [RateLimiter.init, getD_replicate_nil], by simp⟩, ?_⟩
    intro lo'
    simp
  have hchain' : List.Chain' (· ≤ ·) (ts.head?.getD 0 :: ts) := by
    cases ts with
    | nil => simp
    | cons t rest => exact List.chain'_cons.mpr ⟨by simp, hchain⟩
  have := grantTimes_window R ts (RateLimiter.init R N) (fun _ => []) (ts.head?.getD 0)
    hchain' rfl (by simp [RateLimiter.init]) hinit k lo
  simpa using this

/-- **C7, witness.** -/
theorem C7_witness :
    List.Chain' (· ≤ ·) ([0, 0, 0, 0] : List ℤ) ∧
    (grantTimes (RateLimiter.init 2 2) 0 [0, 0, 0, 0]).countP
        (fun t => decide ((0 : ℤ) ≤ t ∧ t ≤ 0 + 60)) ≤ 2 :=
  ⟨by simp [List.chain'_cons],
   (C7_window_bound_and_round_robin 2 2 [0, 0, 0, 0] 0 0
      (by simp [List.chain'_cons])).1⟩

/-! ## Claim C8 — the blocked path: deadlock on the non-reentrant lock -/

/-- Well-formedness of a limiter state: one window per credential, at least
one credential, a positive per-credential ceiling, and no window above the
ceiling (windows grow only by grants admitted under the ceiling). -/
def RLOK (rl : RateLimiter) : Prop :=
  rl.request_times.length = rl.num_keys ∧ 1 ≤ rl.rpm_limit ∧ 1 ≤ rl.num_keys ∧
    ∀ l ∈ rl.request_times, l.length ≤ rl.rpm_limit

/-- One-step unfolding of `wait_if_needed` entered without the lock held. -/
theorem wait_if_needed_succ (fuel : Nat) (rl : RateLimiter) (now : ℤ) :
    wait_if_needed (fuel + 1) rl now false =
      match (try_acquire rl now).1 with
      | some key_idx => some (key_idx, now, (try_acquire rl now).2)
      | none =>
          match oldestEntry (try_acquire rl now).2 with
          | none => none
          | some oldest =>
              wait_if_needed fuel (try_acquire rl now).2
                (now + (60 - (now - oldest) + 1)) true := by
  cases h : try_acquire rl now with
  | mk res rl' =>
      simp only [wait_if_needed, h]
      cases res <;> rfl

/-- Analysis of a failed pass: the cursor is unchanged, every window was at
most evicted in place, and every attempted credential's window is (still) at
its ceiling. -/
theorem tryAttempts_none (now : ℤ) :
    ∀ (attempts : List Nat) (rl : RateLimiter),
    (∀ a ∈ attempts, a < rl.request_times.length) →
    (tryAttempts now rl attempts).1 = none →
    (tryAttempts now rl attempts).2.current_key_index = rl.current_key_index ∧
    (∀ j, (tryAttempts now rl attempts).2.request_times.getD j [] =
            cleanOld now (rl.request_times.getD j []) ∨
          (tryAttempts now rl attempts).2.request_times.getD j [] =
            rl.request_times.getD j []) ∧
    (∀ a ∈ attempts,
      rl.rpm_limit ≤ ((tryAttempts now rl attempts).2.request_times.getD a []).length) := by
  intro attempts
  induction attempts with
  | nil =>
      intro rl hlt hnone
      exact ⟨rfl, fun j => Or.inr rfl, by simp⟩
  | cons key_idx rest ih =>
      intro rl hlt hnone
      have hkey_lt : key_idx < rl.request_times.length := hlt key_idx (by simp)
      simp only [tryAttempts] at hnone ⊢
      by_cases hc : (cleanOld now (rl.request_times.getD key_idx [])).length < rl.rpm_limit
      · rw [if_pos hc] at hnone
        simp at hnone
      · simp only [if_neg hc] at hnone ⊢
        have hceil : rl.rpm_limit ≤ (cleanOld now (rl.request_times.getD key_idx [])).length := by
          omega
        have hlt' : ∀ a ∈ rest,
            a < (rl.request_times.set key_idx
                  (cleanOld now (rl.request_times.getD key_idx []))).length := by
          intro a ha
          rw [List.length_set]
          exact hlt a (by simp [ha])
        obtain ⟨hcur, hdisj, hatt⟩ :=
          ih (RateLimiter.mk rl.rpm_limit rl.num_keys
              (rl.request_times.set key_idx
                (cleanOld now (rl.request_times.getD key_idx [])))
              rl.current_key_index) hlt' hnone
        have hmid : ∀ j, (rl.request_times.set key_idx
            (cleanOld now (rl.request_times.getD key_idx []))).getD j [] =
              cleanOld now (rl.request_times.getD j []) ∨
            (rl.request_times.set key_idx
              (cleanOld now (rl.request_times.getD key_idx []))).getD j [] =
              rl.request_times.getD j [] := by
          intro j
          by_cases hj : key_idx = j
          · subst hj
            exact Or.inl (getD_set_self _ _ _ hkey_lt)
          · exact Or.inr (getD_set_ne _ _ _ _ hj)
        refine ⟨hcur, ?_, ?_⟩
        · intro j
          rcases hdisj j with h1 | h1 <;> rcases hmid j with h2 | h2
          · rw [h1, h2, cleanOld_idem]
            exact Or.inl rfl
          · rw [h1, h2]
            exact Or.inl rfl
          · rw [h1, h2]
            exact Or.inl rfl
          · rw [h1, h2]
            exact Or.inr rfl
        · intro a ha
          rcases List.mem_cons.mp ha with rfl | ha'
          · -- the head attempt: its window was left cleaned, at the ceiling
            rcases hdisj a with h1 | h1
            · rw [h1, getD_set_self _ _ _ hkey_lt, cleanOld_idem]
              exact hceil
            · rw [h1, getD_set_self _ _ _ hkey_lt]
              exact hceil
          · exact hatt a ha'

/-- If some attempted credential has capacity, the pass grants. -/
theorem tryAttempts_some (now : ℤ) :
    ∀ (attempts : List Nat) (rl : RateLimiter),
    (∃ a ∈ attempts, (cleanOld now (rl.request_times.getD a [])).length < rl.rpm_limit) →
    (tryAttempts now rl attempts).1.isSome = true := by
  intro attempts
  induction attempts with
  | nil =>
      intro rl h
      simp at h
  | cons key_idx rest ih =>
      intro rl ⟨a, ha, hcap⟩
      simp only [tryAttempts]
      by_cases hc : (cleanOld now (rl.request_times.getD key_idx [])).length < rl.rpm_limit
      · rw [if_pos hc]
        rfl
      · simp only [if_neg hc]
        apply ih
        rcases List.mem_cons.mp ha with rfl | ha'
        · exact absurd hcap hc
        · refine ⟨a, ha', ?_⟩
          by_cases hj : key_idx = a
          · subst hj
            exact absurd hcap hc
          · rw [getD_set_ne _ _ _ _ hj]
            exact hcap

/-- Every key index below `N` is visited by the rotation starting at any
cursor `c`. -/
theorem mem_rotation (c N j : Nat) (h : j < N) :
    j ∈ (List.range N).map (fun a => (c + a) % N) := by
  have hpos : 0 < N := lt_of_le_of_lt (Nat.zero_le j) h
  have hcm : c % N < N := Nat.mod_lt c hpos
  refine List.mem_map.mpr ⟨(j + N - c % N) % N, List.mem_range.mpr (Nat.mod_lt _ hpos), ?_⟩
  have hb : (j + N - c % N) % N % N = (j + N - c % N) % N :=
    Nat.mod_eq_of_lt (Nat.mod_lt _ hpos)
  calc (c + (j + N - c % N) % N) % N
      = (c % N + (j + N - c % N) % N % N) % N := by rw [Nat.add_mod]
    _ = (c % N + (j + N - c % N) % N) % N := by rw [hb]
    _ = (c % N + (j + N - c % N)) % N := Nat.add_mod_mod _ _ _
    _ = (j + N) % N := by rw [Nat.add_sub_cancel' (by omega : c % N ≤ j + N)]
    _ = j % N := Nat.add_mod_right j N
    _ = j := Nat.mod_eq_of_lt h

/-- Intent analysis backing the C8 diagnosis: the *algorithm* of the blocked
path is sound.  From any well-formed state whose acquisition pass finds every
credential at its ceiling, an oldest window entry exists, and a fresh
acquisition pass at the post-sleep instant `now + (60 - (now - oldest) + 1)`
is granted — the sleep the source computes does free capacity.  Only the
re-acquisition of the still-held non-reentrant lock keeps the retry from
ever executing. -/
theorem retry_after_sleep_would_grant (rl : RateLimiter) (now : ℤ) (hok : RLOK rl)
    (hres : (try_acquire rl now).1 = none) :
    ∃ oldest, oldestEntry (try_acquire rl now).2 = some oldest ∧
      (try_acquire (try_acquire rl now).2
        (now + (60 - (now - oldest) + 1))).1.isSome = true := by
  obtain ⟨hlen, hR, hN, hbound⟩ := hok
  have hlt : ∀ a ∈ (List.range rl.num_keys).map
      (fun attempt => (rl.current_key_index + attempt) % rl.num_keys),
      a < rl.request_times.length := by
    intro a ha
    rcases List.mem_map.mp ha with ⟨x, -, rfl⟩
    rw [hlen]
    exact Nat.mod_lt _ (by omega)
  have hpres := tryAttempts_preserve now
    ((List.range rl.num_keys).map
      (fun attempt => (rl.current_key_index + attempt) % rl.num_keys)) rl
  obtain ⟨-, hdisj, hatt⟩ := tryAttempts_none now _ rl hlt hres
  have hta : (tryAttempts now rl
      ((List.range rl.num_keys).map
        (fun attempt => (rl.current_key_index + attempt) % rl.num_keys))) =
      try_acquire rl now := rfl
  rw [hta] at hpres hdisj hatt
  -- every window of the failed pass's result is within the ceiling
  have hbound₁ : ∀ j, j < (try_acquire rl now).2.request_times.length →
      ((try_acquire rl now).2.request_times.getD j []).length ≤ rl.rpm_limit := by
    intro j hj
    have hj' : j < rl.request_times.length := by
      rw [← hpres.2.1]; exact hj
    have horig : (rl.request_times.getD j []).length ≤ rl.rpm_limit := by
      rw [List.getD_eq_getElem?_getD, List.getElem?_eq_getElem hj']
      exact hbound _ (List.getElem_mem hj')
    rcases hdisj j with h1 | h1 <;> rw [h1]
    · exact le_trans (cleanOld_length_le _ _) horig
    · exact horig
  -- the first attempted credential's window is nonempty, so a head exists
  have hne : (try_acquire rl now).2.request_times.filterMap List.head? ≠ [] := by
    have ha0 : (rl.current_key_index + 0) % rl.num_keys ∈
        (List.range rl.num_keys).map
          (fun attempt => (rl.current_key_index + attempt) % rl.num_keys) :=
      List.mem_map.mpr ⟨0, List.mem_range.mpr (by omega), rfl⟩
    have hfull := hatt _ ha0
    set a0 := (rl.current_key_index + 0) % rl.num_keys with ha0def
    have ha0lt : a0 < (try_acquire rl now).2.request_times.length := by
      rw [hpres.2.1, hlen]
      exact Nat.mod_lt _ (by omega)
    have hmem : (try_acquire rl now).2.request_times.getD a0 [] ∈
        (try_acquire rl now).2.request_times := by
      rw [List.getD_eq_getElem?_getD, List.getElem?_eq_getElem ha0lt]
      exact List.getElem_mem ha0lt
    intro hcontra
    have hnil : (try_acquire rl now).2.request_times.getD a0 [] ≠ [] := by
      intro hx
      rw [hx] at hfull
      simp at hfull
      omega
    cases hdq : (try_acquire rl now).2.request_times.getD a0 [] with
    | nil => exact hnil hdq
    | cons t ts =>
        have : t ∈ (try_acquire rl now).2.request_times.filterMap List.head? :=
          List.mem_filterMap.mpr ⟨t :: ts, by rw [← hdq]; exact hmem, rfl⟩
        rw [hcontra] at this
        simp at this
  obtain ⟨oldest, hold⟩ := Option.isSome_iff_exists.mp
    (listMin_isSome _ hne)
  refine ⟨oldest, hold, ?_⟩
  -- locate the credential holding the overall-oldest entry
  have holdmem := listMin_mem _ _ hold
  rcases List.mem_filterMap.mp holdmem with ⟨dq, hdqmem, hdqhead⟩
  rcases List.mem_iff_getElem.mp hdqmem with ⟨j, hjlt, hjget⟩
  have hjd : (try_acquire rl now).2.request_times.getD j [] = dq := by
    rw [List.getD_eq_getElem?_getD, List.getElem?_eq_getElem hjlt, hjget]
    rfl
  cases hdq : dq with
  | nil => rw [hdq] at hdqhead; simp at hdqhead
  | cons t ts =>
      have ht : t = oldest := by
        rw [hdq] at hdqhead
        simpa using hdqhead
      subst ht
      -- after the sleep the head entry has expired, freeing capacity
      have hcap : (cleanOld (now + (60 - (now - t) + 1))
          ((try_acquire rl now).2.request_times.getD j [])).length <
          (try_acquire rl now).2.rpm_limit := by
        rw [hjd, hdq]
        have hexp : now + (60 - (now - t) + 1) - t > 60 := by omega
        rw [show cleanOld (now + (60 - (now - t) + 1)) (t :: ts) =
            cleanOld (now + (60 - (now - t) + 1)) ts from by simp [cleanOld, hexp]]
        have h1 : (cleanOld (now + (60 - (now - t) + 1)) ts).length ≤ ts.length :=
          cleanOld_length_le _ _
        have h2 : dq.length ≤ rl.rpm_limit := by
          rw [← hjd]
          exact hbound₁ j hjlt
        rw [hdq] at h2
        simp only [List.length_cons] at h2
        rw [hpres.2.2]
        omega
      have hgrant := tryAttempts_some (now + (60 - (now - t) + 1))
        ((List.range (try_acquire rl now).2.num_keys).map
          (fun attempt =>
            ((try_acquire rl now).2.current_key_index + attempt) %
              (try_acquire rl now).2.num_keys))
        (try_acquire rl now).2
        ⟨j, by
          apply mem_rotation
          rw [hpres.1, ← hlen, ← hpres.2.1]
          exact hjlt, hcap⟩
      cases hres₂ : (try_acquire (try_acquire rl now).2 (now + (60 - (now - t) + 1))).1 with
      | some k => rfl
      | none =>
          rw [show (try_acquire (try_acquire rl now).2 (now + (60 - (now - t) + 1))).1 =
              (tryAttempts (now + (60 - (now - t) + 1)) (try_acquire rl now).2 _).1
            from rfl] at hres₂
          rw [hres₂] at hgrant
          simp at hgrant

/-- **C8 (code_bug).**  The claim (and the spec) describe the blocked path as
terminating with a grant: compute the minimum wait until the oldest window
entry expires, sleep it plus a small margin, retry recursively, and
eventually return a credential index.  The source does compute that wait and
sleep, and the computed sleep would free capacity
(`retry_after_sleep_would_grant`) — but the recursive retry at
`rate_limiter.py` line 52 executes *inside* the `with self.lock:` block on
the non-reentrant `threading.Lock` acquired at line 24, so it blocks forever
re-acquiring a lock its own thread already holds.  Hence whenever the first
pass finds every credential at its ceiling, `wait_if_needed` never returns a
credential index, whatever retry budget the model allows. -/
theorem C8_blocked_path_deadlocks (rl : RateLimiter) (now : ℤ)
    (hres : (try_acquire rl now).1 = none) :
    ∀ fuel, wait_if_needed fuel rl now false = none := by
  intro fuel
  cases fuel with
  | zero => rfl
  | succ fuel =>
      rw [wait_if_needed_succ, hres]
      cases oldestEntry (try_acquire rl now).2 with
      | none => rfl
      | some oldest => cases fuel <;> rfl

/-- One credential with ceiling 1, holding a grant recorded at time 0. -/
def c8rl : RateLimiter :=
  { rpm_limit := 1, num_keys := 1, request_times := [[0]], current_key_index := 0 }

/-- **C8, witness.**  On `c8rl`, the acquisition at time 30 finds the
credential at its ceiling, and `wait_if_needed` never produces a grant (here
evaluated at retry budget 5). -/
theorem C8_witness :
    (try_acquire c8rl 30).1 = none ∧
    wait_if_needed 5 c8rl 30 false = none :=
  ⟨by decide, C8_blocked_path_deadlocks c8rl 30 (by decide) 5⟩

end RefactoringPipeline
